import Mathlib

/-!
Verification of the commit-graph reduction and revert-resolution engine of the
jira-changelog repository.

The embedding follows the JavaScript sources:
* `SourceControl` (the revision carrying `isRevert`): `isRevert`,
  `simpleTopLevelGraph`, `consolodateCommitMessages`;
* `template.js`: `filterRevertedCommits`, `decorateTicketReverts`,
  `groupTicketsByStatus`;
* `Jira.js`: `parseTicketsFromString` (with the default ticket pattern of
  `changelog.config.js`).

JavaScript strings are modelled as `String`/`List Char`; JS objects become
structures; in-place mutation becomes explicit state passing; a thrown
`TypeError` becomes `Except.error`.
-/

deriving instance DecidableEq for Except

namespace JiraChangelog

/-! ## JavaScript string primitives -/

/-- JS truthiness of a nullable string: `null`/`undefined` and `""` are falsy. -/
def jsTruthy : Option String → Bool
  | none => false
  | some s => s ≠ ""

/-- JS `a || b` on nullable strings: returns `a` when truthy, else `b`. -/
def jsOr (a b : Option String) : Option String :=
  if jsTruthy a then a else b

/-- Whitespace recognized by JS `String.prototype.trim`. -/
def jsIsSpace (c : Char) : Bool :=
  c = ' ' || c = '\t' || c = '\n' || c = '\r' || c = '\x0b' || c = '\x0c'

/-- JS `s.trim()` on a character list. -/
def jsTrimList (cs : List Char) : List Char :=
  ((cs.dropWhile jsIsSpace).reverse.dropWhile jsIsSpace).reverse

/-- JS `s.replace(/\n/g, ' ')` on a character list. -/
def collapseNewlines (cs : List Char) : List Char :=
  cs.map (fun c => if c = '\n' then ' ' else c)

/-- The `oneLine` normalization of `isRevert`:
`log.fullText.replace(/\n/g, ' ').trim()`. -/
def oneLine (s : String) : List Char :=
  jsTrimList (collapseNewlines s.data)

/-- JS `s.split(' ')`: split on single spaces; `''` yields `['']`,
adjacent/trailing separators yield empty fields. -/
def splitOnSpace : List Char → List (List Char)
  | [] => [[]]
  | ' ' :: rest => [] :: splitOnSpace rest
  | c :: rest =>
    match splitOnSpace rest with
    | [] => [[c]]
    | g :: gs => (c :: g) :: gs

/-- JS `Array.prototype.join(',')` / `Array.prototype.toString` on a string
array, as used when an array is coerced to a property key. -/
def joinComma : List String → String
  | [] => ""
  | [s] => s
  | s :: rest => s ++ "," ++ joinComma rest

/-- ASCII lowercase of a string, modelling JS `toLowerCase` on the
ASCII status names this program compares. -/
def jsToLower (s : String) : String :=
  ⟨s.data.map Char.toLower⟩

/-- ASCII uppercase of a string, modelling JS `toUpperCase` on ticket keys. -/
def jsToUpper (s : String) : String :=
  ⟨s.data.map Char.toUpper⟩

/-! ## Revert detector (`SourceControl.isRevert`)

The source matches `oneLine` against
`/^Revert ".*?This reverts commit ([0-9a-z]+)\.$/` and, on success, counts the
leading `Revert "` repetitions of `summary` via
`summary.match(/^(Revert ")+/g)[0].match(/Revert/g).length`.
When `summary` does not begin with `Revert "`, the first `match` returns
`null` and the `[0]` access throws a `TypeError`, modelled as `Except.error`.
-/

/-- A character the capture group `[0-9a-z]+` accepts. -/
def isHashChar (c : Char) : Bool :=
  (('0' ≤ c && c ≤ '9') || ('a' ≤ c && c ≤ 'z'))

/-- A character the regex `.` can consume (anything but a line terminator;
`\n` was already replaced by a space). -/
def dotOk (c : Char) : Bool :=
  c ≠ '\n' && c ≠ '\r'

/-- The literal `This reverts commit ` (20 characters). -/
def revMarker : List Char :=
  "This reverts commit ".data

/-- The literal `Revert "` (8 characters). -/
def revPrefix : List Char :=
  "Revert \"".data

/-- Match the regex tail `([0-9a-z]+)\.$` against the rest of the input:
a greedy nonempty run of hash characters followed by exactly a final dot.
(The greedy run needs no backtracking: a shorter run would leave a hash
character where `\.` must match.) -/
def hashTail (cs : List Char) : Option (List Char) :=
  if cs.takeWhile isHashChar ≠ [] && cs.drop (cs.takeWhile isHashChar).length = ['.']
  then some (cs.takeWhile isHashChar) else none

/-- The lazy scan of `.*?This reverts commit ([0-9a-z]+)\.$`: try the literal
marker at each position (earliest success wins, as for a lazy quantifier);
advancing consumes one character, which `.` must accept. -/
def scanRevert : List Char → Option (List Char)
  | [] => none
  | c :: cs =>
    if revMarker.isPrefixOf (c :: cs) then
      match hashTail ((c :: cs).drop revMarker.length) with
      | some h => some h
      | none => if dotOk c then scanRevert cs else none
    else if dotOk c then scanRevert cs else none

/-- Full match of `/^Revert ".*?This reverts commit ([0-9a-z]+)\.$/` against a
(already newline-collapsed and trimmed) line; returns the captured hash. -/
def revertMatch (cs : List Char) : Option String :=
  if revPrefix.isPrefixOf cs then
    (scanRevert (cs.drop revPrefix.length)).map (fun h => ⟨h⟩)
  else none

/-- Greedy count of leading `Revert "` repetitions, i.e. the number of
`Revert` occurrences in the single match of `/^(Revert ")+/g`. -/
def leadingReverts : List Char → Nat
  | 'R' :: 'e' :: 'v' :: 'e' :: 'r' :: 't' :: ' ' :: '"' :: rest =>
    leadingReverts rest + 1
  | _ => 0

/-- `SourceControl.isRevert`, lifted to the two fields it reads.
`.error ()` models the `TypeError` thrown by `revertSummary[0]` when the
summary match is `null`. -/
def isRevert (fullText summary : String) : Except Unit (Option String) :=
  match revertMatch (oneLine fullText) with
  | none => Except.ok none
  | some revertSha =>
    let numReverts := leadingReverts summary.data
    if numReverts = 0 then Except.error ()
    else if numReverts % 2 ≠ 0 then Except.ok (some revertSha)
    else Except.ok none

example :
    isRevert
      "Revert \"Foo bar commit\"\nThis reverts commit b71e882870a04fa35b77031f06b1edbdb6acb21c."
      "Revert \"Foo bar commit\"" =
    Except.ok (some "b71e882870a04fa35b77031f06b1edbdb6acb21c") := by decide

example :
    isRevert
      "Code I wrote to revert old behavior. From commit b71e882870a04fa35b77031f06b1edbdb6acb21c."
      "Code I wrote to revert old behavior." = Except.ok none := by decide

example :
    isRevert
      "Revert \"Revert \"Foo bar commit\"\"\nThis reverts commit b71e882870a04fa35b77031f06b1edbdb6acb21c."
      "Revert \"Revert \"Foo bar commit\"\"" = Except.ok none := by decide

example :
    isRevert
      "Revert \"Revert \"Revert \"Foo bar commit\"\"\nThis reverts commit b71e882870a04fa35b77031f06b1edbdb6acb21c."
      "Revert \"Revert \"Revert \"Foo bar commit\"\"" =
    Except.ok (some "b71e882870a04fa35b77031f06b1edbdb6acb21c") := by decide

example :
    isRevert "Revert \"x\" This reverts commit ab." "Code cleanup" =
    Except.error () := by decide

/-! ## Graph reducer (`SourceControl.simpleTopLevelGraph`)

A raw commit record as returned by the `git log` query, and a decorated
commit object.  In the source every decorated object carries
`graph = { prev, parents, merged }`; objects claimed into a `merged` list
always keep an empty `merged` of their own (only top-level objects are
assigned a non-empty one), so nested objects are represented by `GNode` and
top-level objects by `GTop` holding its `graph.merged` list.

The `hashes` map (JS object keyed by `revision`, last write wins) is
modelled as a list with unique revisions (`upsert` replaces).  The `while`
loop and the recursive `relatedLogs` closure terminate because every claimed
commit is deleted from `hashes` first; they are modelled with an explicit
fuel argument that is provably never exhausted on the entry-point calls
(`mainGo_fuel_irrel`, `claimGo_fuel_irrel`). -/

structure RawLog where
  revision : String
  parents : String
  date : String := ""
  summary : String := ""
  fullText : String := ""
  authorName : String := ""
  authorEmail : String := ""
deriving DecidableEq

structure GNode where
  revision : String
  parents : String
  date : String
  summary : String
  fullText : String
  authorName : String
  authorEmail : String
  graphPrev : String
  graphParents : List String
  reverted : Option String
deriving DecidableEq

structure GTop where
  node : GNode
  graphMerged : List GNode
deriving DecidableEq

/-- `hashes[k]` (JS object property read). -/
def lookupRev (hs : List GNode) (k : String) : Option GNode :=
  hs.find? (fun g => g.revision = k)

/-- `delete hashes[k]`. -/
def eraseRev (hs : List GNode) (k : String) : List GNode :=
  hs.filter (fun g => g.revision ≠ k)

/-- `hashes[g.revision] = g` (overwrites an existing entry). -/
def upsert (hs : List GNode) (g : GNode) : List GNode :=
  eraseRev hs g.revision ++ [g]

/-- Decorate one raw log: shallow-copy, split `parents` on spaces into
`graph.prev` / `graph.parents`, and run `isRevert` (whose `TypeError`
propagates). -/
def decorate (l : RawLog) : Except Unit GNode :=
  let parents := (splitOnSpace l.parents.data).map (fun cs => (⟨cs⟩ : String))
  match isRevert l.fullText l.summary with
  | Except.error e => Except.error e
  | Except.ok reverted =>
    Except.ok { revision := l.revision, parents := l.parents, date := l.date,
                summary := l.summary, fullText := l.fullText,
                authorName := l.authorName, authorEmail := l.authorEmail,
                graphPrev := parents.headD "", graphParents := parents.tail,
                reverted := reverted }

/-- The mainline `while` loop: push the current log, delete it from
`hashes`, follow `graph.prev`.  Returns the top-level list and the remaining
`hashes`.  Fuel bounds the iteration count; `hashes.length` is always
enough because every iteration deletes the current revision.
The fuel-exhausted base case performs the same push-and-delete step and
stops, so it agrees with the loop whenever fuel suffices. -/
def mainGo : Nat → List GNode → GNode → List GNode × List GNode
  | 0, hashes, log => ([log], eraseRev hashes log.revision)
  | fuel + 1, hashes, log =>
    let hs := eraseRev hashes log.revision
    match lookupRev hs log.graphPrev with
    | none => ([log], hs)
    | some next =>
      let r := mainGo fuel hs next
      (log :: r.1, r.2)

/-- In `relatedLogs` the related "hashes" are `[logItem.graph.prev,
logItem.graph.parents]` — the second entry is the parents *array*, which the
property read `hashes[hash]` coerces to its comma-joined string. -/
def relatedKeys (g : GNode) : List String :=
  [g.graphPrev, joinComma g.graphParents]

/-- The recursive `relatedLogs` closure, as a worklist over pending keys:
for each key in order, if it is present in `hashes`, delete it, emit the
object and recursively emit its own related keys (depth-first), then
continue with the remaining keys against the updated `hashes`.
(The `if (!logItem || !logItem.graph)` guard of the source is dead code:
every object stored in `hashes` was decorated with a `graph`.)
Fuel bounds the recursion; `3 * hashes.length + keys.length` is always
enough because every emitted object is deleted first
(`claimGoWith_fuel_add`).  The function is parametric in how an object's
related keys are computed, so the source's behaviour (`relatedKeys`) and
the specification's (`specRelatedKeys`) can be compared. -/
def claimGoWith (related : GNode → List String) :
    Nat → List GNode → List String → List GNode × List GNode
  | 0, hs, _ => ([], hs)
  | _ + 1, hs, [] => ([], hs)
  | fuel + 1, hs, k :: rest =>
    match lookupRev hs k with
    | none => claimGoWith related fuel hs rest
    | some obj =>
      let r1 := claimGoWith related fuel (eraseRev hs k) (related obj)
      let r2 := claimGoWith related fuel r1.2 rest
      (obj :: (r1.1 ++ r2.1), r2.2)

/-- One `relatedLogs`-style call on a worklist, with sufficient fuel. -/
def claimAllWith (related : GNode → List String) (hs : List GNode)
    (keys : List String) : List GNode × List GNode :=
  claimGoWith related (3 * hs.length + keys.length) hs keys

/-- `relatedLogs` of the source, started on one object's related keys. -/
def claimAll (hs : List GNode) (keys : List String) : List GNode × List GNode :=
  claimAllWith relatedKeys hs keys

/-- `graph.forEach((topLevelLog) => { topLevelLog.graph.merged =
relatedLogs(topLevelLog); })`, threading the shared `hashes` map. -/
def attachWith (related : GNode → List String) :
    List GNode → List GNode → List GTop × List GNode
  | hs, [] => ([], hs)
  | hs, t :: ts =>
    let r := claimAllWith related hs (related t)
    let rest := attachWith related r.2 ts
    (⟨t, r.1⟩ :: rest.1, rest.2)

/-- The merged-commit attachment pass of the source. -/
def attachMergedAux (hs : List GNode) (graph : List GNode) :
    List GTop × List GNode :=
  attachWith relatedKeys hs graph

/-- `SourceControl.simpleTopLevelGraph`. -/
def simpleTopLevelGraph (logs : List RawLog) : Except Unit (List GTop) :=
  match logs.mapM decorate with
  | Except.error e => Except.error e
  | Except.ok logObjs =>
    let hashes := logObjs.foldl upsert []
    match logObjs with
    | [] => Except.ok []
    | first :: _ =>
      let m := mainGo hashes.length hashes first
      Except.ok (attachMergedAux m.2 m.1).1

/-- Modelled from the spec (§4.3, step 3), for the refinement comparison of
the merged-commit collection: the commits related to an object are its
`graphPrev` together with *each* entry of `graphParents` individually
("transitively reachable via `graphPrev` union `graphParents`"), rather
than the source's single comma-joined parents key. -/
def specRelatedKeys (g : GNode) : List String :=
  g.graphPrev :: g.graphParents

/-- Modelled from the spec (§4.3): the graph reduction with the merged
collection following `specRelatedKeys`; mainline walk and decoration are
those of the source. -/
def specSimpleTopLevelGraph (logs : List RawLog) : Except Unit (List GTop) :=
  match logs.mapM decorate with
  | Except.error e => Except.error e
  | Except.ok logObjs =>
    let hashes := logObjs.foldl upsert []
    match logObjs with
    | [] => Except.ok []
    | first :: _ =>
      let m := mainGo hashes.length hashes first
      Except.ok (attachWith specRelatedKeys m.2 m.1).1

/-- `SourceControl.consolodateCommitMessages` (the revision that ships with
`isRevert`): append the trimmed `fullText` of every non-reverted merged
commit, trim the result; `summary` is left alone by this revision. -/
def consolodateCommitMessages (graph : List GTop) : List GTop :=
  graph.map (fun item =>
    let fullText := item.graphMerged.foldl
      (fun acc merged =>
        if jsTruthy merged.reverted then acc
        else acc ++ "\n" ++ (⟨jsTrimList merged.fullText.data⟩ : String))
      item.node.fullText
    { item with node := { item.node with fullText := ⟨jsTrimList fullText.data⟩ } })

/-! ## Revert resolver (`template.js`)

`filterRevertedCommits` mutates shared objects through the `commitHash`
lookup and collects object references in a `Set`.  Object identity is
modelled by list position: `commitHash[r]` resolves to the *last* input
position with revision `r` (JS property writes overwrite), the `Set` is an
insertion-ordered list of positions, and the mutable `revertedBy` fields
live in a positional store. -/

structure CLog where
  revision : String
  date : String := ""
  reverted : Option String := none
  revertedBy : Option String := none
deriving DecidableEq

/-- Position of the object `commitHash[r]` refers to: the last entry with
revision `r` (later `commitHash[l.revision] = l` writes win). -/
def lastIdxOf : List CLog → String → Option Nat
  | [], _ => none
  | l :: rest, r =>
    match lastIdxOf rest r with
    | some j => some (j + 1)
    | none => if l.revision = r then some 0 else none

/-- `Set.prototype.add`: append if not already present (insertion order). -/
def addIdx (acc : List Nat) (j : Nat) : List Nat :=
  if j ∈ acc then acc else acc ++ [j]

/-- One step of the `reduce` in `filterRevertedCommits`, at input position
`i`; the state is the positional `revertedBy` store and the `Set`. -/
def frStep (logs : List CLog) (st : List (Option String) × List Nat) (i : Nat) :
    List (Option String) × List Nat :=
  match logs.get? i with
  | none => st
  | some log =>
    if jsTruthy log.reverted then
      match lastIdxOf logs (log.reverted.getD "") with
      | some j => (st.1.set j (some log.revision), addIdx st.2 j)
      | none => (st.1, addIdx st.2 i)
    else (st.1, addIdx st.2 i)

/-- `template.js` `filterRevertedCommits`. -/
def filterRevertedCommits (logs : List CLog) : List CLog :=
  let st := (List.range logs.length).foldl (frStep logs)
    (logs.map (fun l => l.revertedBy), [])
  st.2.filterMap (fun i => (logs.get? i).map
    (fun log => { log with revertedBy := (st.1.get? i).getD log.revertedBy }))

/-! ## Ticket-level marking and grouping (`template.js`) -/

structure Ticket where
  key : String := ""
  commits : List CLog := []
  reverted : Option String := none
  fieldsStatusName : String := ""
deriving DecidableEq

/-- Lexicographic `≤` on character lists by code point, modelling the JS
string comparison `sortBy` performs on the (ASCII) date strings. -/
def lexLe : List Char → List Char → Bool
  | [], _ => true
  | _ :: _, [] => false
  | a :: as, b :: bs =>
    if a.toNat < b.toNat then true
    else if a.toNat = b.toNat then lexLe as bs
    else false

/-- JS `a <= b` on strings. -/
def dateLe (a b : String) : Bool :=
  lexLe a.data b.data

/-- Stable insertion into a date-ascending list (an element goes before the
first strictly-later-inserted element of equal date, which makes the sort
below stable, as lodash `sortBy` is). -/
def insertByDate (c : CLog) : List CLog → List CLog
  | [] => [c]
  | d :: ds => if dateLe c.date d.date then c :: d :: ds else d :: insertByDate c ds

/-- `_.sortBy(commits, commit => commit.date)`: stable ascending sort by the
`date` string. -/
def sortByDate : List CLog → List CLog
  | [] => []
  | c :: cs => insertByDate c (sortByDate cs)

/-- `template.js` `decorateTicketReverts`. -/
def decorateTicketReverts (tickets : List Ticket) : List Ticket :=
  tickets.map (fun ticket =>
    if ticket.commits.isEmpty then { ticket with reverted := none }
    else
      match (sortByDate ticket.commits).reverse with
      | [] => { ticket with reverted := none }
      | lastCommit :: _ =>
        { ticket with reverted := jsOr lastCommit.reverted lastCommit.revertedBy })

/-- The `config.jira.approvalStatus` value: absent, a single string, or an
array of strings. -/
inductive ApprovalStatus where
  | undef : ApprovalStatus
  | single : String → ApprovalStatus
  | strings : List String → ApprovalStatus
deriving DecidableEq

/-- The `tickets.forEach` push loop of `groupTicketsByStatus`:
`(approved, pending)`. -/
def groupGo (statusMatch : List String) (tickets : List Ticket) :
    List Ticket × List Ticket :=
  tickets.foldl (fun out t =>
    if statusMatch.contains (jsToLower t.fieldsStatusName) then (out.1 ++ [t], out.2)
    else (out.1, out.2 ++ [t])) ([], [])

/-- `template.js` `groupTicketsByStatus`.  `!approvalStatus` is JS-falsy for
`undefined` and for the empty string (an empty *array* is truthy and falls
through to the loop); a single string is wrapped into a one-element array. -/
def groupTicketsByStatus (approvalStatus : ApprovalStatus) (tickets : List Ticket) :
    List Ticket × List Ticket :=
  match approvalStatus with
  | .undef => ([], tickets)
  | .single s => if s = "" then ([], tickets) else groupGo [jsToLower s] tickets
  | .strings l => groupGo (l.map jsToLower) tickets

/-! ## Ticket extractor (`Jira.parseTicketsFromString`)

The configured pattern is modelled as the repository's default
`changelog.config.js` pattern `/\[([A-Z]+\-[0-9]+)\]/i`: a bracketed
letters-dash-digits key, matched case-insensitively, capture group 1 being
the key without brackets.  The global scan finds leftmost matches and
continues after each; re-matching a whole match against the pattern yields
its capture group, so the scanner returns captures directly. -/

def isTicketLetter (c : Char) : Bool :=
  ('A' ≤ c && c ≤ 'Z') || ('a' ≤ c && c ≤ 'z')

def isDigitChar (c : Char) : Bool :=
  '0' ≤ c && c ≤ '9'

/-- Match `/\[([A-Z]+\-[0-9]+)\]/i` at exactly this position; on success
return the capture (group 1) and the remainder after the whole match.
The greedy `+` runs need no backtracking: letters cannot match `-` and
digits cannot match `]`. -/
def ticketAt : List Char → Option (List Char × List Char)
  | '[' :: cs =>
    if cs.takeWhile isTicketLetter = [] then none
    else
      match cs.drop (cs.takeWhile isTicketLetter).length with
      | '-' :: cs2 =>
        if cs2.takeWhile isDigitChar = [] then none
        else
          match cs2.drop (cs2.takeWhile isDigitChar).length with
          | ']' :: rest =>
            some (cs.takeWhile isTicketLetter ++ '-' :: cs2.takeWhile isDigitChar,
              rest)
          | _ => none
      | _ => none
  | _ => none

/-- The global-flag scan `str.match(searchPattern)`, yielding the capture of
each successive leftmost match.  Fuel bounds the scan; the string length is
always enough since every step consumes at least one character. -/
def scanTicketsGo : Nat → List Char → List (List Char)
  | 0, _ => []
  | _ + 1, [] => []
  | fuel + 1, c :: cs =>
    match ticketAt (c :: cs) with
    | some r => r.1 :: scanTicketsGo fuel r.2
    | none => scanTicketsGo fuel cs

/-- `Jira.parseTicketsFromString` with the default ticket pattern: map each
match to its capture-group key, drop falsy (empty) keys, uppercase.
No de-duplication happens here. -/
def parseTicketsFromString (str : String) : List String :=
  (scanTicketsGo str.data.length str.data).filterMap
    (fun key => if key.isEmpty then none else some (jsToUpper ⟨key⟩))

/-! ## Heap model for the frame property of the graph pipeline

JS objects live in a heap of numbered cells.  A cell is a commit object in
any decoration state: the raw query result has only the base fields, the
fields added by `simpleTopLevelGraph` are `Option`-absent until written.
The pipeline *reads* the input cells, shallow-copies them (`{ ...l }`) into
freshly allocated cells, and every later mutation (graph decoration,
merged-list assignment, message consolidation) targets only those copies;
the model materializes the copies' final states at fresh addresses and
leaves the input cells untouched, which is the property at issue. -/

structure DynCell where
  base : RawLog
  graphPrev : Option String := none
  graphParents : Option (List String) := none
  graphMerged : Option (List Nat) := none
  reverted : Option (Option String) := none
deriving DecidableEq

structure Heap where
  next : Nat
  cells : List (Nat × DynCell)
deriving DecidableEq

/-- Addresses of live cells are below the allocation counter. -/
def Heap.wf (h : Heap) : Prop :=
  ∀ p ∈ h.cells, p.1 < h.next

instance : DecidablePred Heap.wf := fun h =>
  inferInstanceAs (Decidable (∀ p ∈ h.cells, p.1 < h.next))

def Heap.lookup (h : Heap) (a : Nat) : Option DynCell :=
  (h.cells.find? (fun p => p.1 = a)).map (fun p => p.2)

def Heap.alloc (h : Heap) (c : DynCell) : Heap × Nat :=
  (⟨h.next + 1, h.cells ++ [(h.next, c)]⟩, h.next)

/-- The final state of a decorated commit object: base fields copied from
the input record, decoration fields written, `graph.merged` holding the
addresses of the claimed objects (empty for non-top-level objects). -/
def nodeCell (n : GNode) (merged : List Nat) : DynCell :=
  { base := { revision := n.revision, parents := n.parents, date := n.date,
              summary := n.summary, fullText := n.fullText,
              authorName := n.authorName, authorEmail := n.authorEmail },
    graphPrev := some n.graphPrev, graphParents := some n.graphParents,
    graphMerged := some merged, reverted := some n.reverted }

/-- Allocate cells for a list of (non-top-level) decorated objects. -/
def allocNodes : Heap → List GNode → Heap × List Nat
  | h, [] => (h, [])
  | h, n :: rest =>
    let r := h.alloc (nodeCell n [])
    let r2 := allocNodes r.1 rest
    (r2.1, r.2 :: r2.2)

/-- Allocate cells for the top-level objects and their merged lists. -/
def allocTops : Heap → List GTop → Heap × List Nat
  | h, [] => (h, [])
  | h, t :: rest =>
    let rm := allocNodes h t.graphMerged
    let rt := rm.1.alloc (nodeCell t.node rm.2)
    let r2 := allocTops rt.1 rest
    (r2.1, rt.2 :: r2.2)

/-- Heap-level run of `simpleTopLevelGraph` followed by
`consolodateCommitMessages` over the records stored at `addrs`: read the
inputs, run the value-level pipeline on the shallow copies, store every
resulting object in a freshly allocated cell.  A missing input record or a
propagated `isRevert` `TypeError` leaves the heap unchanged and reports the
failure. -/
def graphPipelineHeap (h : Heap) (addrs : List Nat) :
    Heap × Except Unit (List Nat) :=
  match addrs.mapM h.lookup with
  | none => (h, Except.error ())
  | some cells =>
    match simpleTopLevelGraph (cells.map (fun c => c.base)) with
    | Except.error e => (h, Except.error e)
    | Except.ok graph =>
      let out := consolodateCommitMessages graph
      let r := allocTops h out
      (r.1, Except.ok r.2)

/-! ## Specification-side helper predicates used by the theorems -/

/-- A decorated object with at most one non-first parent and a non-empty
revision: the shape on which the source's comma-joined parents key agrees
with the specification's per-parent traversal. -/
def okNode (g : GNode) : Prop :=
  g.graphParents.length ≤ 1 ∧ g.revision ≠ ""

instance : DecidablePred okNode := fun g =>
  inferInstanceAs (Decidable (g.graphParents.length ≤ 1 ∧ g.revision ≠ ""))

/-- The corresponding condition on a raw record: its `parents` string
splits into at most two entries, and its revision is non-empty. -/
def okRaw (l : RawLog) : Prop :=
  (splitOnSpace l.parents.data).length ≤ 2 ∧ l.revision ≠ ""

instance : DecidablePred okRaw := fun l =>
  inferInstanceAs (Decidable ((splitOnSpace l.parents.data).length ≤ 2 ∧ l.revision ≠ ""))

/-- Worklist correspondence for the refinement proof: the source's worklist
is the specification's with harmless `""` filler keys interspersed (a
commit with no non-first parent contributes the key `"".` -- the
comma-join of an empty list -- where the specification contributes
nothing). -/
inductive KeysRel : List String → List String → Prop
  | nil : KeysRel [] []
  | cons (k : String) {ks ks' : List String} :
      KeysRel ks ks' → KeysRel (k :: ks) (k :: ks')
  | filler {ks ks' : List String} :
      KeysRel ks ks' → KeysRel ("" :: ks) ks'

/-- The commit whose `date` is strictly the latest of a list. -/
def strictlyLatest (c : CLog) (commits : List CLog) : Prop :=
  c ∈ commits ∧ ∀ d ∈ commits, d ≠ c → (dateLe d.date c.date = true ∧ d.date ≠ c.date)

instance (c : CLog) (commits : List CLog) : Decidable (strictlyLatest c commits) :=
  inferInstanceAs (Decidable (_ ∧ _))

/-- The configured approval-status names: JS-falsy configurations
(`undefined`, `""`) configure nothing. -/
def approvalNames : ApprovalStatus → List String
  | .undef => []
  | .single s => if s = "" then [] else [s]
  | .strings l => l

/-- Case-insensitive membership of a ticket's status name in the configured
approval-status names. -/
def ciApproved (approvalStatus : ApprovalStatus) (t : Ticket) : Prop :=
  ∃ s ∈ approvalNames approvalStatus, jsToLower s = jsToLower t.fieldsStatusName

instance (a : ApprovalStatus) (t : Ticket) : Decidable (ciApproved a t) :=
  inferInstanceAs (Decidable (∃ s ∈ approvalNames a, _))

/-- The position the `reduce` step for input position `i` adds to the `Set`:
the (last-bound) position of the reverted commit when `reverted` is truthy
and its target revision is present, the commit's own position otherwise. -/
def addedAt (logs : List CLog) (i : Nat) : Nat :=
  match logs.get? i with
  | none => i
  | some log =>
    if jsTruthy log.reverted then
      match lastIdxOf logs (log.reverted.getD "") with
      | some j => j
      | none => i
    else i

/-! # Theorems

## Basic facts about the `hashes` map -/

theorem lookupRev_revision {hs : List GNode} {k : String} {g : GNode}
    (h : lookupRev hs k = some g) : g.revision = k := by
  have := List.find?_some h
  simpa using this

theorem lookupRev_mem {hs : List GNode} {k : String} {g : GNode}
    (h : lookupRev hs k = some g) : g ∈ hs :=
  List.mem_of_find?_eq_some h

theorem eraseRev_sublist (hs : List GNode) (k : String) :
    List.Sublist (eraseRev hs k) hs :=
  List.filter_sublist _

theorem eraseRev_length_lt {hs : List GNode} {k : String} {g : GNode}
    (h : lookupRev hs k = some g) : (eraseRev hs k).length < hs.length := by
  unfold eraseRev
  rw [List.length_filter_lt_length_iff_exists]
  refine ⟨g, lookupRev_mem h, ?_⟩
  simp [lookupRev_revision h]

theorem filter_rev_eq_singleton {hs : List GNode} {g : GNode} (hmem : g ∈ hs)
    (hnd : (hs.map GNode.revision).Nodup) :
    hs.filter (fun x => x.revision = g.revision) = [g] := by
  induction hs with
  | nil => cases hmem
  | cons a t ih =>
    simp only [List.map_cons, List.nodup_cons] at hnd
    rcases List.mem_cons.mp hmem with rfl | hgt
    · have ht : t.filter (fun x => x.revision = g.revision) = [] := by
        refine List.filter_eq_nil_iff.mpr (fun x hx => ?_)
        simp only [decide_eq_true_eq]
        intro hcontr
        exact hnd.1 (hcontr ▸ List.mem_map_of_mem GNode.revision hx)
      simp [List.filter_cons, ht]
    · have hne : a.revision ≠ g.revision := by
        intro hcontr
        exact hnd.1 (hcontr ▸ List.mem_map_of_mem GNode.revision hgt)
      simp [List.filter_cons, hne, ih hgt hnd.2]

theorem perm_cons_eraseRev {hs : List GNode} {g : GNode} (hmem : g ∈ hs)
    (hnd : (hs.map GNode.revision).Nodup) :
    hs.Perm (g :: eraseRev hs g.revision) := by
  have hperm := (List.filter_append_perm (fun x => x.revision = g.revision) hs).symm
  rw [filter_rev_eq_singleton hmem hnd] at hperm
  have heq : eraseRev hs g.revision = hs.filter (fun x => !(x.revision = g.revision : Bool)) := by
    unfold eraseRev
    congr 1
    funext x
    simp [ne_eq, decide_not]
  rw [heq]
  exact hperm

theorem eraseRev_map_nodup {hs : List GNode} {k : String}
    (hnd : (hs.map GNode.revision).Nodup) :
    ((eraseRev hs k).map GNode.revision).Nodup :=
  hnd.sublist ((eraseRev_sublist hs k).map GNode.revision)

/-! ## Shrinking and permutation facts for the merged-commit collection -/

theorem claimGoWith_sublist (related : GNode → List String) :
    ∀ (fuel : Nat) (hs : List GNode) (keys : List String),
    List.Sublist (claimGoWith related fuel hs keys).2 hs := by
  intro fuel
  induction fuel with
  | zero => intro hs keys; exact List.Sublist.refl hs
  | succ f ih =>
    intro hs keys
    cases keys with
    | nil => exact List.Sublist.refl hs
    | cons k rest =>
      simp only [claimGoWith]
      cases hfind : lookupRev hs k with
      | none => simp only [hfind]; exact ih hs rest
      | some obj =>
        simp only [hfind]
        exact ((ih _ rest).trans (ih _ _)).trans (eraseRev_sublist hs k)

theorem claimGoWith_perm (related : GNode → List String) :
    ∀ (fuel : Nat) (hs : List GNode) (keys : List String),
    (hs.map GNode.revision).Nodup →
    ((claimGoWith related fuel hs keys).1 ++ (claimGoWith related fuel hs keys).2).Perm hs := by
  intro fuel
  induction fuel with
  | zero => intro hs keys _; exact List.Perm.refl hs
  | succ f ih =>
    intro hs keys hnd
    cases keys with
    | nil => exact List.Perm.refl hs
    | cons k rest =>
      simp only [claimGoWith]
      cases hfind : lookupRev hs k with
      | none => simp only [hfind]; exact ih hs rest hnd
      | some obj =>
        have hobj : obj ∈ hs := lookupRev_mem hfind
        have hrev : obj.revision = k := lookupRev_revision hfind
        have hcons : hs.Perm (obj :: eraseRev hs k) := by
          rw [← hrev]; exact perm_cons_eraseRev hobj hnd
        have hnd1 : ((eraseRev hs k).map GNode.revision).Nodup := eraseRev_map_nodup hnd
        have h1 := ih (eraseRev hs k) (related obj) hnd1
        have hnd2 : ((claimGoWith related f (eraseRev hs k) (related obj)).2.map GNode.revision).Nodup :=
          hnd1.sublist ((claimGoWith_sublist related f (eraseRev hs k) (related obj)).map GNode.revision)
        have h2 := ih (claimGoWith related f (eraseRev hs k) (related obj)).2 rest hnd2
        simp only [hfind, List.cons_append, List.append_assoc]
        refine List.Perm.trans (List.Perm.cons obj ?_) hcons.symm
        exact (List.Perm.append_left _ h2).trans h1

/-! ## Mainline walk facts -/

theorem mainGo_sublist : ∀ (fuel : Nat) (hashes : List GNode) (log : GNode),
    List.Sublist (mainGo fuel hashes log).2 hashes := by
  intro fuel
  induction fuel with
  | zero => intro hashes log; exact eraseRev_sublist hashes log.revision
  | succ f ih =>
    intro hashes log
    simp only [mainGo]
    cases hfind : lookupRev (eraseRev hashes log.revision) log.graphPrev with
    | none => simp only [hfind]; exact eraseRev_sublist hashes log.revision
    | some next =>
      simp only [hfind]
      exact (ih _ next).trans (eraseRev_sublist hashes log.revision)

theorem mainGo_perm : ∀ (fuel : Nat) (hashes : List GNode) (log : GNode),
    (hashes.map GNode.revision).Nodup → log ∈ hashes →
    ((mainGo fuel hashes log).1 ++ (mainGo fuel hashes log).2).Perm hashes := by
  intro fuel
  induction fuel with
  | zero =>
    intro hashes log hnd hmem
    exact (perm_cons_eraseRev hmem hnd).symm
  | succ f ih =>
    intro hashes log hnd hmem
    simp only [mainGo]
    cases hfind : lookupRev (eraseRev hashes log.revision) log.graphPrev with
    | none =>
      simp only [hfind]
      exact (perm_cons_eraseRev hmem hnd).symm
    | some next =>
      simp only [hfind, List.cons_append]
      have hnd1 : ((eraseRev hashes log.revision).map GNode.revision).Nodup :=
        eraseRev_map_nodup hnd
      have hnext : next ∈ eraseRev hashes log.revision := lookupRev_mem hfind
      have h1 := ih (eraseRev hashes log.revision) next hnd1 hnext
      exact (List.Perm.cons log h1).trans (perm_cons_eraseRev hmem hnd).symm

/-! ## Building the `hashes` map -/

theorem foldl_upsert_eq_append : ∀ (l acc : List GNode),
    (((acc ++ l).map GNode.revision).Nodup) → l.foldl upsert acc = acc ++ l := by
  intro l
  induction l with
  | nil => intro acc _; simp
  | cons a t ih =>
    intro acc hnd
    have hnd' : (acc.map GNode.revision ++ (a :: t).map GNode.revision).Nodup := by
      rw [← List.map_append]; exact hnd
    have hdisj := (List.nodup_append.mp hnd').2.2
    have hnotin : a.revision ∉ acc.map GNode.revision := by
      intro hmem
      exact hdisj hmem (by simp)
    have herase : eraseRev acc a.revision = acc := by
      refine List.filter_eq_self.mpr (fun x hx => ?_)
      simp only [decide_eq_true_eq]
      intro hcontr
      exact hnotin (hcontr ▸ List.mem_map_of_mem GNode.revision hx)
    have hstep : upsert acc a = acc ++ [a] := by
      unfold upsert
      rw [herase]
    have hnd2 : (((acc ++ [a]) ++ t).map GNode.revision).Nodup := by
      simpa [List.append_assoc] using hnd
    calc (a :: t).foldl upsert acc = t.foldl upsert (upsert acc a) := rfl
      _ = t.foldl upsert (acc ++ [a]) := by rw [hstep]
      _ = (acc ++ [a]) ++ t := ih (acc ++ [a]) hnd2
      _ = acc ++ a :: t := by simp

/-! ## Decoration facts -/

theorem exceptMapM_cons {α β ε : Type} (f : α → Except ε β) (a : α) (t : List α) :
    (a :: t).mapM f =
      match f a with
      | Except.error e => Except.error e
      | Except.ok b =>
        match t.mapM f with
        | Except.error e => Except.error e
        | Except.ok bs => Except.ok (b :: bs) := by
  rw [List.mapM_cons]
  cases hfa : f a with
  | error e => simp [Bind.bind, Except.bind]
  | ok b =>
    cases hft : t.mapM f with
    | error e => simp [Bind.bind, Except.bind, hft]
    | ok bs => simp [Bind.bind, Except.bind, hft, pure, Except.pure]

theorem exceptMapM_nil {α β ε : Type} (f : α → Except ε β) :
    ([] : List α).mapM f = Except.ok [] := by
  rw [List.mapM_nil]; rfl

theorem decorate_ok_fields {l : RawLog} {g : GNode} (h : decorate l = Except.ok g) :
    g.revision = l.revision ∧
    g.graphParents =
      (((splitOnSpace l.parents.data).map (fun cs => (⟨cs⟩ : String)))).tail := by
  unfold decorate at h
  cases hir : isRevert l.fullText l.summary with
  | error e => rw [hir] at h; cases h
  | ok reverted =>
    rw [hir] at h
    cases h
    exact ⟨rfl, rfl⟩

theorem splitOnSpace_ne_nil : ∀ (cs : List Char), splitOnSpace cs ≠ [] := by
  intro cs
  induction cs with
  | nil => simp [splitOnSpace]
  | cons c rest ih =>
    rw [splitOnSpace.eq_def]
    split
    · simp
    · simp
    · split <;> simp

theorem mapM_decorate_forall₂ : ∀ {logs : List RawLog} {objs : List GNode},
    logs.mapM decorate = Except.ok objs →
    List.Forall₂ (fun l g => decorate l = Except.ok g) logs objs := by
  intro logs
  induction logs with
  | nil =>
    intro objs h
    rw [exceptMapM_nil] at h
    cases h
    exact List.Forall₂.nil
  | cons a t ih =>
    intro objs h
    rw [exceptMapM_cons] at h
    cases ha : decorate a with
    | error e => rw [ha] at h; cases h
    | ok g =>
      rw [ha] at h
      cases ht : t.mapM decorate with
      | error e => rw [ht] at h; cases h
      | ok gs =>
        rw [ht] at h
        cases h
        exact List.Forall₂.cons ha (ih ht)

theorem forall₂_decorate_revisions {logs : List RawLog} {objs : List GNode}
    (h : List.Forall₂ (fun l g => decorate l = Except.ok g) logs objs) :
    objs.map GNode.revision = logs.map RawLog.revision := by
  induction h with
  | nil => rfl
  | cons hd _ ih =>
    simp only [List.map_cons, ih, List.cons.injEq, and_true]
    exact (decorate_ok_fields hd).1

/-! ## The merged-attachment pass -/

theorem attachWith_spec (related : GNode → List String) :
    ∀ (graph hs : List GNode), (hs.map GNode.revision).Nodup →
    (attachWith related hs graph).1.map GTop.node = graph ∧
    (((attachWith related hs graph).1.map (fun t => t.graphMerged)).flatten ++
      (attachWith related hs graph).2).Perm hs := by
  intro graph
  induction graph with
  | nil => intro hs _; exact ⟨rfl, List.Perm.refl hs⟩
  | cons t ts ih =>
    intro hs hnd
    have hperm := claimGoWith_perm related (3 * hs.length + (related t).length) hs (related t) hnd
    have hsub := claimGoWith_sublist related (3 * hs.length + (related t).length) hs (related t)
    have hnd2 : ((claimAllWith related hs (related t)).2.map GNode.revision).Nodup :=
      hnd.sublist (hsub.map GNode.revision)
    have hrec := ih (claimAllWith related hs (related t)).2 hnd2
    constructor
    · simp only [attachWith, List.map_cons, hrec.1]
    · simp only [attachWith, List.map_cons, List.flatten_cons, List.append_assoc]
      exact (List.Perm.append_left _ hrec.2).trans hperm

/-- C1: in the reduced graph, with well-formed input (unique revisions),
every input revision appears at most once in total across the top-level
list and all nested `graphMerged` lists, and every revision appearing in
the output comes from the input (revisions the traversal never claims are
absent). -/
theorem C1_no_double_attribution (logs : List RawLog) (out : List GTop)
    (hnd : (logs.map RawLog.revision).Nodup)
    (hok : simpleTopLevelGraph logs = Except.ok out) :
    ((out.map (fun t => t.node.revision)) ++
      ((out.map (fun t => t.graphMerged.map GNode.revision)).flatten)).Nodup ∧
    (∀ r ∈ (out.map (fun t => t.node.revision)) ++
      ((out.map (fun t => t.graphMerged.map GNode.revision)).flatten),
      r ∈ logs.map RawLog.revision) := by
  unfold simpleTopLevelGraph at hok
  cases hm : logs.mapM decorate with
  | error e => rw [hm] at hok; cases hok
  | ok objs =>
    rw [hm] at hok
    have hrevs : objs.map GNode.revision = logs.map RawLog.revision :=
      forall₂_decorate_revisions (mapM_decorate_forall₂ hm)
    have hndobjs : (objs.map GNode.revision).Nodup := hrevs ▸ hnd
    cases objs with
    | nil =>
      cases hok
      exact ⟨List.nodup_nil, by intro r hr; cases hr⟩
    | cons first restObjs =>
      simp only at hok
      have hhashes : (first :: restObjs).foldl upsert [] = first :: restObjs := by
        have := foldl_upsert_eq_append (first :: restObjs) []
        simpa using this (by simpa using hndobjs)
      rw [hhashes] at hok
      have hfirst : first ∈ first :: restObjs := List.mem_cons_self first restObjs
      have hmperm := mainGo_perm (first :: restObjs).length (first :: restObjs) first
        hndobjs hfirst
      have hmsub := mainGo_sublist (first :: restObjs).length (first :: restObjs) first
      have hndm2 : ((mainGo (first :: restObjs).length (first :: restObjs) first).2.map
          GNode.revision).Nodup := hndobjs.sublist (hmsub.map GNode.revision)
      have hat := attachWith_spec relatedKeys
        (mainGo (first :: restObjs).length (first :: restObjs) first).1
        (mainGo (first :: restObjs).length (first :: restObjs) first).2 hndm2
      unfold attachMergedAux at hok
      cases hok
      -- Abbreviations for readability
      set m := mainGo (first :: restObjs).length (first :: restObjs) first with hm2
      set res := attachWith relatedKeys m.2 m.1 with hres
      -- The combined revision list is a permutation-prefix of the input revisions
      have hmap1 : res.1.map (fun t => t.node.revision) = m.1.map GNode.revision := by
        have := hat.1
        calc res.1.map (fun t => t.node.revision)
            = (res.1.map GTop.node).map GNode.revision := by
              simp [List.map_map, Function.comp_def]
          _ = m.1.map GNode.revision := by rw [this]
      have hmap2 : (res.1.map (fun t => t.graphMerged.map GNode.revision)).flatten =
          ((res.1.map (fun t => t.graphMerged)).flatten).map GNode.revision := by
        rw [List.map_flatten]
        simp [List.map_map, Function.comp_def]
      have hbig : ((m.1.map GNode.revision) ++
          (((res.1.map (fun t => t.graphMerged)).flatten).map GNode.revision ++
            (res.2.map GNode.revision))).Perm ((first :: restObjs).map GNode.revision) := by
        have h1 : (((res.1.map (fun t => t.graphMerged)).flatten ++ res.2).map
            GNode.revision).Perm (m.2.map GNode.revision) := hat.2.map GNode.revision
        rw [List.map_append] at h1
        have h2 : ((m.1 ++ m.2).map GNode.revision).Perm
            ((first :: restObjs).map GNode.revision) := hmperm.map GNode.revision
        rw [List.map_append] at h2
        exact (List.Perm.append_left _ h1).trans h2
      have hbignd : ((m.1.map GNode.revision) ++
          (((res.1.map (fun t => t.graphMerged)).flatten).map GNode.revision ++
            (res.2.map GNode.revision))).Nodup := hbig.nodup_iff.mpr hndobjs
      constructor
      · rw [hmap1, hmap2]
        exact hbignd.sublist ((List.sublist_append_left _ _).append_left _)
      · intro r hr
        rw [hmap1, hmap2] at hr
        have hrin : r ∈ (m.1.map GNode.revision) ++
            (((res.1.map (fun t => t.graphMerged)).flatten).map GNode.revision ++
              (res.2.map GNode.revision)) := by
          rcases List.mem_append.mp hr with h | h
          · exact List.mem_append.mpr (Or.inl h)
          · exact List.mem_append.mpr (Or.inr (List.mem_append.mpr (Or.inl h)))
        have := hbig.mem_iff.mp hrin
        rwa [hrevs] at this

/-! ## Fuel irrelevance and step equations for the worklist -/

theorem claimGoWith_key_nil (related : GNode → List String) :
    ∀ (fuel : Nat) (hs : List GNode), claimGoWith related fuel hs [] = ([], hs) := by
  intro fuel hs
  cases fuel <;> rfl

theorem claimGoWith_fuel_add (related : GNode → List String) :
    ∀ (fuel add : Nat) (hs : List GNode) (keys : List String),
      (∀ g ∈ hs, (related g).length ≤ 2) →
      3 * hs.length + keys.length ≤ fuel →
      claimGoWith related (fuel + add) hs keys = claimGoWith related fuel hs keys := by
  intro fuel
  induction fuel using Nat.strong_induction_on with
  | _ fuel ih =>
  intro add hs keys hrel hfuel
  cases fuel with
  | zero =>
    have hhs : hs = [] := List.length_eq_zero.mp (by omega)
    have hk : keys = [] := List.length_eq_zero.mp (by omega)
    subst hhs; subst hk
    cases add <;> rfl
  | succ f =>
    cases keys with
    | nil =>
      rw [show f + 1 + add = (f + add) + 1 by omega]
      rfl
    | cons k rest =>
      rw [show f + 1 + add = (f + add) + 1 by omega]
      simp only [claimGoWith]
      cases hfind : lookupRev hs k with
      | none =>
        simp only [hfind]
        refine ih f (Nat.lt_succ_self f) add hs rest hrel ?_
        simp only [List.length_cons] at hfuel
        omega
      | some obj =>
        simp only [hfind]
        have hobj := lookupRev_mem hfind
        have hlt := eraseRev_length_lt hfind
        have hrel1 : ∀ g ∈ eraseRev hs k, (related g).length ≤ 2 :=
          fun g hg => hrel g ((eraseRev_sublist hs k).subset hg)
        have hro := hrel obj hobj
        simp only [List.length_cons] at hfuel
        have e1 := ih f (Nat.lt_succ_self f) add (eraseRev hs k) (related obj) hrel1
          (by omega)
        rw [e1]
        have hsub2 := claimGoWith_sublist related f (eraseRev hs k) (related obj)
        have hrel2 : ∀ g ∈ (claimGoWith related f (eraseRev hs k) (related obj)).2,
            (related g).length ≤ 2 := fun g hg => hrel1 g (hsub2.subset hg)
        have hl2 := hsub2.length_le
        have e2 := ih f (Nat.lt_succ_self f) add
          (claimGoWith related f (eraseRev hs k) (related obj)).2 rest hrel2 (by omega)
        rw [e2]

theorem claimAllWith_nil (related : GNode → List String) (hs : List GNode) :
    claimAllWith related hs [] = ([], hs) :=
  claimGoWith_key_nil related _ hs

theorem claimAllWith_cons_none (related : GNode → List String) {hs : List GNode}
    {k : String} {rest : List String} (hfind : lookupRev hs k = none) :
    claimAllWith related hs (k :: rest) = claimAllWith related hs rest := by
  unfold claimAllWith
  rw [show 3 * hs.length + (k :: rest).length = (3 * hs.length + rest.length) + 1 by
    simp only [List.length_cons]; omega]
  simp only [claimGoWith, hfind]

theorem claimAllWith_cons_some (related : GNode → List String) {hs : List GNode}
    {k : String} {rest : List String} {obj : GNode}
    (hfind : lookupRev hs k = some obj)
    (hrel : ∀ g ∈ hs, (related g).length ≤ 2) :
    claimAllWith related hs (k :: rest) =
      ((obj :: ((claimAllWith related (eraseRev hs k) (related obj)).1 ++
        (claimAllWith related
          (claimAllWith related (eraseRev hs k) (related obj)).2 rest).1)),
        (claimAllWith related
          (claimAllWith related (eraseRev hs k) (related obj)).2 rest).2) := by
  have hobj := lookupRev_mem hfind
  have hlt := eraseRev_length_lt hfind
  have hro := hrel obj hobj
  have hrel1 : ∀ g ∈ eraseRev hs k, (related g).length ≤ 2 :=
    fun g hg => hrel g ((eraseRev_sublist hs k).subset hg)
  have e1 : claimGoWith related (3 * hs.length + rest.length)
      (eraseRev hs k) (related obj) =
      claimAllWith related (eraseRev hs k) (related obj) := by
    obtain ⟨d, hd⟩ : ∃ d, 3 * hs.length + rest.length =
        (3 * (eraseRev hs k).length + (related obj).length) + d :=
      ⟨3 * hs.length + rest.length -
        (3 * (eraseRev hs k).length + (related obj).length), by omega⟩
    rw [hd]
    exact claimGoWith_fuel_add related _ d _ _ hrel1 (Nat.le_refl _)
  have hsub2 : List.Sublist (claimAllWith related (eraseRev hs k) (related obj)).2
      (eraseRev hs k) :=
    claimGoWith_sublist related _ (eraseRev hs k) (related obj)
  have hl2 := hsub2.length_le
  have hrel2 : ∀ g ∈ (claimAllWith related (eraseRev hs k) (related obj)).2,
      (related g).length ≤ 2 := fun g hg => hrel1 g (hsub2.subset hg)
  have e2 : claimGoWith related (3 * hs.length + rest.length)
      (claimAllWith related (eraseRev hs k) (related obj)).2 rest =
      claimAllWith related (claimAllWith related (eraseRev hs k) (related obj)).2
        rest := by
    obtain ⟨d, hd⟩ : ∃ d, 3 * hs.length + rest.length =
        (3 * (claimAllWith related (eraseRev hs k) (related obj)).2.length +
          rest.length) + d :=
      ⟨3 * hs.length + rest.length -
        (3 * (claimAllWith related (eraseRev hs k) (related obj)).2.length +
          rest.length), by omega⟩
    rw [hd]
    exact claimGoWith_fuel_add related _ d _ _ hrel2 (Nat.le_refl _)
  conv_lhs =>
    unfold claimAllWith
    rw [show 3 * hs.length + (k :: rest).length = (3 * hs.length + rest.length) + 1 by
      simp only [List.length_cons]; omega]
  simp only [claimGoWith, hfind]
  rw [e1, e2]

/-! ## Refinement: the source traversal against the specification traversal -/

theorem relatedKeys_length (g : GNode) : (relatedKeys g).length = 2 := rfl

theorem keysRel_related {g : GNode} (hok : okNode g) :
    KeysRel (relatedKeys g) (specRelatedKeys g) := by
  obtain ⟨hlen, _⟩ := hok
  unfold relatedKeys specRelatedKeys
  cases hp : g.graphParents with
  | nil =>
    simp only [joinComma]
    exact KeysRel.cons _ (KeysRel.filler KeysRel.nil)
  | cons p ps =>
    have hps : ps = [] := by
      rw [hp] at hlen
      simpa using hlen
    subst hps
    simp only [joinComma]
    exact KeysRel.cons _ (KeysRel.cons _ KeysRel.nil)

theorem claimAllWith_spec_equiv :
    ∀ (n : Nat) (hs : List GNode) (keys keys' : List String),
      3 * hs.length + keys.length + keys'.length ≤ n →
      (∀ g ∈ hs, okNode g) →
      KeysRel keys keys' →
      claimAllWith relatedKeys hs keys = claimAllWith specRelatedKeys hs keys' := by
  intro n
  induction n with
  | zero =>
    intro hs keys keys' hn hok hrel
    have hk : keys = [] := List.length_eq_zero.mp (by omega)
    subst hk
    cases hrel
    rw [claimAllWith_nil, claimAllWith_nil]
  | succ n ih =>
    intro hs keys keys' hn hok hrel
    cases hrel with
    | nil => rw [claimAllWith_nil, claimAllWith_nil]
    | @cons k ks ks' hrel' =>
      cases hfind : lookupRev hs k with
      | none =>
        rw [claimAllWith_cons_none relatedKeys hfind,
            claimAllWith_cons_none specRelatedKeys hfind]
        refine ih hs ks ks' ?_ hok hrel'
        simp only [List.length_cons] at hn
        omega
      | some obj =>
        have hobj := lookupRev_mem hfind
        have hokobj := hok obj hobj
        have hrelbound : ∀ g ∈ hs, (relatedKeys g).length ≤ 2 := fun g _ => by
          rw [relatedKeys_length]
        have hrelbound' : ∀ g ∈ hs, (specRelatedKeys g).length ≤ 2 := fun g hg => by
          have := (hok g hg).1
          simp only [specRelatedKeys, List.length_cons]
          omega
        rw [claimAllWith_cons_some relatedKeys hfind hrelbound,
            claimAllWith_cons_some specRelatedKeys hfind hrelbound']
        have hok1 : ∀ g ∈ eraseRev hs k, okNode g :=
          fun g hg => hok g ((eraseRev_sublist hs k).subset hg)
        have hlt := eraseRev_length_lt hfind
        have hkr := keysRel_related hokobj
        simp only [List.length_cons] at hn
        have e1 : claimAllWith relatedKeys (eraseRev hs k) (relatedKeys obj) =
            claimAllWith specRelatedKeys (eraseRev hs k) (specRelatedKeys obj) := by
          refine ih _ _ _ ?_ hok1 hkr
          rw [relatedKeys_length]
          have hpl := hokobj.1
          simp only [specRelatedKeys, List.length_cons]
          omega
        rw [e1]
        have hsub : List.Sublist (claimAllWith specRelatedKeys (eraseRev hs k)
            (specRelatedKeys obj)).2 (eraseRev hs k) :=
          claimGoWith_sublist specRelatedKeys _ (eraseRev hs k) (specRelatedKeys obj)
        have hok2 : ∀ g ∈ (claimAllWith specRelatedKeys (eraseRev hs k)
            (specRelatedKeys obj)).2, okNode g :=
          fun g hg => hok1 g (hsub.subset hg)
        have hl2 := hsub.length_le
        have e2 := ih (claimAllWith specRelatedKeys (eraseRev hs k)
          (specRelatedKeys obj)).2 ks ks' (by omega) hok2 hrel'
        rw [e2]
    | @filler ks ks' hrel' =>
      have hfind : lookupRev hs "" = none := by
        cases hf : lookupRev hs "" with
        | none => rfl
        | some g => exact absurd (lookupRev_revision hf) (hok g (lookupRev_mem hf)).2
      rw [claimAllWith_cons_none relatedKeys hfind]
      refine ih hs ks keys' ?_ hok hrel'
      simp only [List.length_cons] at hn
      omega

theorem attachWith_spec_equiv : ∀ (graph hs : List GNode),
    (∀ g ∈ hs, okNode g) → (∀ g ∈ graph, okNode g) →
    attachWith relatedKeys hs graph = attachWith specRelatedKeys hs graph := by
  intro graph
  induction graph with
  | nil => intro hs _ _; rfl
  | cons t ts ih =>
    intro hs hok hokg
    have hokt : okNode t := hokg t (List.mem_cons_self t ts)
    have e1 : claimAllWith relatedKeys hs (relatedKeys t) =
        claimAllWith specRelatedKeys hs (specRelatedKeys t) :=
      claimAllWith_spec_equiv
        (3 * hs.length + (relatedKeys t).length + (specRelatedKeys t).length)
        hs _ _ (Nat.le_refl _) hok (keysRel_related hokt)
    have hsub := claimGoWith_sublist specRelatedKeys
      (3 * hs.length + (specRelatedKeys t).length) hs (specRelatedKeys t)
    have hok2 : ∀ g ∈ (claimAllWith specRelatedKeys hs (specRelatedKeys t)).2,
        okNode g := fun g hg => hok g (hsub.subset hg)
    have hokts : ∀ g ∈ ts, okNode g := fun g hg => hokg g (List.mem_cons_of_mem t hg)
    simp only [attachWith]
    rw [e1, ih _ hok2 hokts]

theorem mem_foldl_upsert : ∀ (l acc : List GNode) (x : GNode),
    x ∈ l.foldl upsert acc → x ∈ acc ∨ x ∈ l := by
  intro l
  induction l with
  | nil => intro acc x h; exact Or.inl h
  | cons a t ih =>
    intro acc x h
    rcases ih (upsert acc a) x h with h1 | h1
    · unfold upsert at h1
      rcases List.mem_append.mp h1 with h2 | h2
      · exact Or.inl ((eraseRev_sublist acc a.revision).subset h2)
      · simp at h2
        exact Or.inr (h2 ▸ List.mem_cons_self a t)
    · exact Or.inr (List.mem_cons_of_mem a h1)

theorem mainGo_fst_subset : ∀ (fuel : Nat) (hashes : List GNode) (log : GNode),
    ∀ x ∈ (mainGo fuel hashes log).1, x = log ∨ x ∈ hashes := by
  intro fuel
  induction fuel with
  | zero =>
    intro hashes log x hx
    simp [mainGo] at hx
    exact Or.inl hx
  | succ f ih =>
    intro hashes log x hx
    simp only [mainGo] at hx
    cases hfind : lookupRev (eraseRev hashes log.revision) log.graphPrev with
    | none =>
      rw [hfind] at hx
      simp at hx
      exact Or.inl hx
    | some next =>
      rw [hfind] at hx
      simp only [List.mem_cons] at hx
      rcases hx with rfl | hx
      · exact Or.inl rfl
      · rcases ih (eraseRev hashes log.revision) next x hx with rfl | h
        · exact Or.inr ((eraseRev_sublist hashes log.revision).subset
            (lookupRev_mem hfind))
        · exact Or.inr ((eraseRev_sublist hashes log.revision).subset h)

theorem decorate_okNode {l : RawLog} {g : GNode} (h : decorate l = Except.ok g)
    (hok : okRaw l) : okNode g := by
  obtain ⟨hrev, hparents⟩ := decorate_ok_fields h
  constructor
  · rw [hparents]
    have hne := splitOnSpace_ne_nil l.parents.data
    have hlen := hok.1
    cases hsp : splitOnSpace l.parents.data with
    | nil => exact absurd hsp hne
    | cons a b =>
      rw [hsp] at hlen
      simp only [List.map_cons, List.tail_cons, List.length_map]
      simp [List.length_cons] at hlen
      omega
  · rw [hrev]
    exact hok.2

theorem forall₂_exists_left {R : RawLog → GNode → Prop} :
    ∀ {logs : List RawLog} {objs : List GNode}, List.Forall₂ R logs objs →
    ∀ g ∈ objs, ∃ l ∈ logs, R l g := by
  intro logs objs h
  induction h with
  | nil => intro g hg; cases hg
  | cons hd _ ih =>
    intro g hg
    rcases List.mem_cons.mp hg with rfl | hg'
    · exact ⟨_, List.mem_cons_self _ _, hd⟩
    · obtain ⟨l, hl, hr⟩ := ih g hg'
      exact ⟨l, List.mem_cons_of_mem _ hl, hr⟩

/-- C2 (amended): on inputs where every commit has at most one non-first
parent (at most two parents in total) and no empty revision, the source's
graph reduction coincides with the specification's traversal
(`specSimpleTopLevelGraph`), whose merged collection follows `graphPrev`
and each `graphParents` entry individually, depth-first, against the
shrinking index.  For merge commits with three or more parents the source
instead looks up the single comma-joined parents key and the claim fails
(`C2_octopus_counterexample`). -/
theorem C2_graph_merged_refines_spec (logs : List RawLog)
    (hok : ∀ l ∈ logs, okRaw l) :
    simpleTopLevelGraph logs = specSimpleTopLevelGraph logs := by
  unfold simpleTopLevelGraph specSimpleTopLevelGraph attachMergedAux
  cases hm : logs.mapM decorate with
  | error e => rfl
  | ok objs =>
    have hforall := mapM_decorate_forall₂ hm
    have hobjok : ∀ g ∈ objs, okNode g := by
      intro g hg
      obtain ⟨l, hl, hdg⟩ := forall₂_exists_left hforall g hg
      exact decorate_okNode hdg (hok l hl)
    cases objs with
    | nil => rfl
    | cons first restObjs =>
      simp only
      have hhashok : ∀ g ∈ (first :: restObjs).foldl upsert [], okNode g := by
        intro g hg
        rcases mem_foldl_upsert (first :: restObjs) [] g hg with h | h
        · cases h
        · exact hobjok g h
      have hm2ok : ∀ g ∈ (mainGo ((first :: restObjs).foldl upsert []).length
          ((first :: restObjs).foldl upsert []) first).2, okNode g := by
        intro g hg
        exact hhashok g ((mainGo_sublist _ _ _).subset hg)
      have hm1ok : ∀ g ∈ (mainGo ((first :: restObjs).foldl upsert []).length
          ((first :: restObjs).foldl upsert []) first).1, okNode g := by
        intro g hg
        rcases mainGo_fst_subset _ _ _ g hg with rfl | h
        · exact hobjok g (List.mem_cons_self _ _)
        · exact hhashok g h
      rw [attachWith_spec_equiv _ _ hm2ok hm1ok]

/-- C2 (counterexample): for the octopus merge `A` with parents `B C D`,
the source looks up the single key `"C,D"` in the index, finds nothing, and
claims neither `C` nor `D`: both are direct non-first parents of the
reachable tip `A` and present in the index, yet they appear in no
`graphMerged` list (nor at top level) of the output. -/
theorem C2_octopus_counterexample :
    (simpleTopLevelGraph
      [{ revision := "A", parents := "B C D", date := "", summary := "a",
         fullText := "a", authorName := "", authorEmail := "" },
       { revision := "B", parents := "", date := "", summary := "b",
         fullText := "b", authorName := "", authorEmail := "" },
       { revision := "C", parents := "", date := "", summary := "c",
         fullText := "c", authorName := "", authorEmail := "" },
       { revision := "D", parents := "", date := "", summary := "d",
         fullText := "d", authorName := "", authorEmail := "" }]).map
      (fun out => out.map (fun t => (t.node.revision,
        t.node.graphParents, t.graphMerged.map GNode.revision))) =
      Except.ok [("A", ["C", "D"], []), ("B", [], [])] := by decide

/-! ## Correctness of the revert-pattern matcher -/

theorem takeWhile_drop_eq (p : Char → Bool) : ∀ (cs : List Char),
    cs = cs.takeWhile p ++ cs.drop (cs.takeWhile p).length := by
  intro cs
  induction cs with
  | nil => rfl
  | cons c t ih =>
    by_cases hp : p c = true
    · simp only [List.takeWhile_cons, hp, if_true, List.length_cons,
        List.drop_succ_cons, List.cons_append, List.cons.injEq, true_and]
      exact ih
    · simp [List.takeWhile_cons, hp]

theorem takeWhile_append_of_all {p : Char → Bool} : ∀ (t : List Char) (d : Char)
    (rest : List Char), (∀ c ∈ t, p c = true) → p d = false →
    (t ++ d :: rest).takeWhile p = t := by
  intro t
  induction t with
  | nil => intro d rest _ hd; simp [List.takeWhile_cons, hd]
  | cons a t' ih =>
    intro d rest hall hd
    have ha := hall a (List.mem_cons_self a t')
    simp only [List.cons_append, List.takeWhile_cons, ha, if_true, List.cons.injEq,
      true_and]
    exact ih d rest (fun c hc => hall c (List.mem_cons_of_mem a hc)) hd

theorem hashTail_eq_some_iff {cs t : List Char} :
    hashTail cs = some t ↔
      (t ≠ [] ∧ (∀ c ∈ t, isHashChar c = true) ∧ cs = t ++ ['.']) := by
  constructor
  · intro h
    unfold hashTail at h
    split at h
    · rename_i hcond
      cases h
      rw [Bool.and_eq_true, decide_eq_true_eq, decide_eq_true_eq] at hcond
      refine ⟨by simpa using hcond.1, fun c hc => List.mem_takeWhile_imp hc, ?_⟩
      conv_lhs => rw [takeWhile_drop_eq isHashChar cs]
      rw [hcond.2]
    · cases h
  · rintro ⟨hne, hall, rfl⟩
    unfold hashTail
    have htw : (t ++ '.' :: []).takeWhile isHashChar = t :=
      takeWhile_append_of_all t '.' [] hall (by decide)
    simp only [htw]
    rw [List.drop_left]
    simp [hne]

theorem scanRevert_marker_hit {cs : List Char} {h : List Char}
    (hpre : revMarker.isPrefixOf cs = true)
    (hht : hashTail (cs.drop revMarker.length) = some h) :
    scanRevert cs = some h := by
  cases cs with
  | nil => exact absurd hpre (by decide)
  | cons c cs' =>
    simp only [scanRevert, hpre, if_true, hht]

theorem hashTail_inner_none (pre h : List Char) (hpre : 1 ≤ pre.length) :
    hashTail ((pre ++ (revMarker ++ (h ++ ['.']))).drop 20) = none := by
  have hm0 : revMarker = "This reverts commit".data ++ [' '] := by decide
  have hlen19 : ("This reverts commit".data).length = 19 := by decide
  have hrearr : pre ++ (revMarker ++ (h ++ ['.'])) =
      ((pre ++ "This reverts commit".data) ++ ([' '] ++ h)) ++ ['.'] := by
    rw [hm0]; simp [List.append_assoc]
  cases hht : hashTail ((pre ++ (revMarker ++ (h ++ ['.']))).drop 20) with
  | none => rfl
  | some t =>
    exfalso
    obtain ⟨hne, hall, heq⟩ := hashTail_eq_some_iff.mp hht
    rw [hrearr] at heq
    have hd1 : (((pre ++ "This reverts commit".data) ++ ([' '] ++ h)) ++ ['.']).drop 20 =
        (((pre ++ "This reverts commit".data).drop 20) ++ ([' '] ++ h)) ++ ['.'] := by
      rw [List.drop_append_of_le_length (by
        simp only [List.length_append, hlen19]; omega)]
      rw [List.drop_append_of_le_length (by
        simp only [List.length_append, hlen19]; omega)]
    rw [hd1] at heq
    have ht : ((pre ++ "This reverts commit".data).drop 20) ++ ([' '] ++ h) = t :=
      List.append_cancel_right heq
    have hsp : ' ' ∈ t := by rw [← ht]; simp
    have := hall ' ' hsp
    simp [isHashChar] at this

theorem scanRevert_complete : ∀ (mid h : List Char),
    (∀ c ∈ mid, dotOk c = true) → h ≠ [] → (∀ c ∈ h, isHashChar c = true) →
    scanRevert (mid ++ (revMarker ++ (h ++ ['.']))) = some h := by
  intro mid
  induction mid with
  | nil =>
    intro h _ hne hall
    simp only [List.nil_append]
    refine scanRevert_marker_hit ?_ ?_
    · exact List.isPrefixOf_iff_prefix.mpr (List.prefix_append _ _)
    · rw [List.drop_left]
      exact hashTail_eq_some_iff.mpr ⟨hne, hall, rfl⟩
  | cons c mid' ih =>
    intro h hdot hne hall
    have hdotc : dotOk c = true := hdot c (List.mem_cons_self _ _)
    have hdot' : ∀ x ∈ mid', dotOk x = true :=
      fun x hx => hdot x (List.mem_cons_of_mem _ hx)
    have hih := ih h hdot' hne hall
    simp only [List.cons_append]
    cases hpre : revMarker.isPrefixOf (c :: (mid' ++ (revMarker ++ (h ++ ['.'])))) with
    | true =>
      have hnone : hashTail ((c :: (mid' ++ (revMarker ++ (h ++ ['.'])))).drop
          revMarker.length) = none := by
        have hre : c :: (mid' ++ (revMarker ++ (h ++ ['.']))) =
            (c :: mid') ++ (revMarker ++ (h ++ ['.'])) := by simp
        have h20 : revMarker.length = 20 := by decide
        rw [hre, h20]
        exact hashTail_inner_none (c :: mid') h (by simp)
      simp only [scanRevert, hpre, if_true, hnone, hdotc]
      exact hih
    | false =>
      simp only [scanRevert, hpre, hdotc, if_true, Bool.false_eq_true, if_false]
      exact hih

theorem scanRevert_sound : ∀ (cs h : List Char), scanRevert cs = some h →
    ∃ mid, cs = mid ++ (revMarker ++ (h ++ ['.'])) ∧ (∀ c ∈ mid, dotOk c = true) ∧
      h ≠ [] ∧ (∀ c ∈ h, isHashChar c = true) := by
  intro cs
  induction cs with
  | nil => intro h hscan; simp [scanRevert] at hscan
  | cons c cs' ih =>
    intro h hscan
    cases hpre : revMarker.isPrefixOf (c :: cs') with
    | true =>
      simp only [scanRevert, hpre, if_true] at hscan
      cases hht : hashTail ((c :: cs').drop revMarker.length) with
      | some hh =>
        rw [hht] at hscan
        cases hscan
        obtain ⟨hne, hall, heq⟩ := hashTail_eq_some_iff.mp hht
        obtain ⟨rest, hrest⟩ := List.isPrefixOf_iff_prefix.mp hpre
        refine ⟨[], ?_, fun x hx => absurd hx (List.not_mem_nil x), hne, hall⟩
        have hdrop : (c :: cs').drop revMarker.length = rest := by
          rw [← hrest, List.drop_left]
        rw [List.nil_append, ← hrest]
        rw [hdrop] at heq
        rw [heq]
      | none =>
        rw [hht] at hscan
        cases hdc : dotOk c with
        | false => rw [hdc] at hscan; simp at hscan
        | true =>
          rw [hdc] at hscan
          simp at hscan
          obtain ⟨mid, hmid, hdot, hne, hall⟩ := ih h hscan
          refine ⟨c :: mid, by simp [hmid], ?_, hne, hall⟩
          intro x hx
          rcases List.mem_cons.mp hx with rfl | hx'
          · exact hdc
          · exact hdot x hx'
    | false =>
      simp only [scanRevert, hpre, Bool.false_eq_true, if_false] at hscan
      cases hdc : dotOk c with
      | false => rw [hdc] at hscan; simp at hscan
      | true =>
        rw [hdc] at hscan
        simp at hscan
        obtain ⟨mid, hmid, hdot, hne, hall⟩ := ih h hscan
        refine ⟨c :: mid, by simp [hmid], ?_, hne, hall⟩
        intro x hx
        rcases List.mem_cons.mp hx with rfl | hx'
        · exact hdc
        · exact hdot x hx'

theorem revertMatch_complete {cs mid h : List Char}
    (heq : cs = revPrefix ++ (mid ++ (revMarker ++ (h ++ ['.']))))
    (hdot : ∀ c ∈ mid, dotOk c = true) (hne : h ≠ [])
    (hall : ∀ c ∈ h, isHashChar c = true) :
    revertMatch cs = some ⟨h⟩ := by
  subst heq
  unfold revertMatch
  have hp : revPrefix.isPrefixOf
      (revPrefix ++ (mid ++ (revMarker ++ (h ++ ['.'])))) = true :=
    List.isPrefixOf_iff_prefix.mpr (List.prefix_append _ _)
  simp only [hp, if_true, List.drop_left]
  rw [scanRevert_complete mid h hdot hne hall]
  rfl

theorem revertMatch_sound {cs : List Char} {s : String}
    (h : revertMatch cs = some s) :
    ∃ mid hh, cs = revPrefix ++ (mid ++ (revMarker ++ (hh ++ ['.']))) ∧
      (∀ c ∈ mid, dotOk c = true) ∧ hh ≠ [] ∧ (∀ c ∈ hh, isHashChar c = true) ∧
      s = ⟨hh⟩ := by
  unfold revertMatch at h
  cases hpre : revPrefix.isPrefixOf cs with
  | false => rw [hpre] at h; simp at h
  | true =>
    rw [hpre] at h
    simp only [if_true, Option.map_eq_some'] at h
    obtain ⟨hh, hscan, rfl⟩ := h
    obtain ⟨mid, hmid, hdot, hne, hall⟩ := scanRevert_sound _ hh hscan
    obtain ⟨rest, hrest⟩ := List.isPrefixOf_iff_prefix.mp hpre
    have hdrop : cs.drop revPrefix.length = rest := by rw [← hrest, List.drop_left]
    rw [hdrop] at hmid
    exact ⟨mid, hh, by rw [← hrest, hmid], hdot, hne, hall, rfl⟩

/-- C3 (amended): when the newline-collapsed, trimmed `fullText` matches
the anchored pattern `Revert "<anything>This reverts commit <hash>.`,
`isRevert` returns the extracted hash if the count of leading `Revert "`
markers of `summary` is odd and `null` if that count is even and positive
(an unrevert); amending the claim, a zero count (a matching `fullText`
whose summary does not start with `Revert "`) makes `isRevert` throw
rather than return `null`.  When `fullText` does not match the anchored
pattern — including text that merely contains the word "revert" —
`isRevert` returns `null`. -/
theorem C3_isRevert_classification (fullText summary : String) :
    (∀ (mid h : List Char),
      oneLine fullText = revPrefix ++ (mid ++ (revMarker ++ (h ++ ['.']))) →
      (∀ c ∈ mid, dotOk c = true) → h ≠ [] → (∀ c ∈ h, isHashChar c = true) →
      (leadingReverts summary.data % 2 = 1 →
        isRevert fullText summary = Except.ok (some ⟨h⟩)) ∧
      (leadingReverts summary.data % 2 = 0 → leadingReverts summary.data ≠ 0 →
        isRevert fullText summary = Except.ok none) ∧
      (leadingReverts summary.data = 0 →
        isRevert fullText summary = Except.error ())) ∧
    ((¬ ∃ (mid h : List Char),
      oneLine fullText = revPrefix ++ (mid ++ (revMarker ++ (h ++ ['.']))) ∧
      (∀ c ∈ mid, dotOk c = true) ∧ h ≠ [] ∧ (∀ c ∈ h, isHashChar c = true)) →
      isRevert fullText summary = Except.ok none) := by
  constructor
  · intro mid h heq hdot hne hall
    have hmatch : revertMatch (oneLine fullText) = some ⟨h⟩ :=
      revertMatch_complete heq hdot hne hall
    refine ⟨?_, ?_, ?_⟩
    · intro hodd
      have h0 : ¬ (leadingReverts summary.data = 0) := by omega
      have h1 : leadingReverts summary.data % 2 ≠ 0 := by omega
      simp [isRevert, hmatch, h0, h1]
    · intro heven hnz
      simp [isRevert, hmatch, hnz, heven]
    · intro hz
      simp [isRevert, hmatch, hz]
  · intro hnex
    cases hrm : revertMatch (oneLine fullText) with
    | none => simp [isRevert, hrm]
    | some s =>
      exfalso
      obtain ⟨mid, hh, hcs, hdot, hne, hall, _⟩ := revertMatch_sound hrm
      exact hnex ⟨mid, hh, hcs, hdot, hne, hall⟩

/-- C3 (counterexample): the commit whose `fullText` matches the anchored
revert pattern while its `summary` has zero leading `Revert "` markers — a
zero (even) count, for which the claim demands `null` — makes `isRevert`
throw a `TypeError` (`revertSummary` is `null` and `revertSummary[0]` is
evaluated) instead of returning `null`. -/
theorem C3_even_zero_counterexample :
    oneLine "Revert \"y\" This reverts commit ff." =
      revPrefix ++ ("y\" ".data ++ (revMarker ++ ("ff".data ++ ['.']))) ∧
    (∀ c ∈ "y\" ".data, dotOk c = true) ∧
    (∀ c ∈ "ff".data, isHashChar c = true) ∧
    leadingReverts "Unrelated".data % 2 = 0 ∧
    isRevert "Revert \"y\" This reverts commit ff." "Unrelated" = Except.error () ∧
    isRevert "Revert \"y\" This reverts commit ff." "Unrelated" ≠ Except.ok none := by
  decide

/-- C7: the revert/graph engine is *not* total on well-formed commit
records: for a record whose `fullText` matches the anchored revert pattern
but whose `summary` does not begin with `Revert "`,
`summary.match(/^(Revert ")+/g)` is `null` and the `[0]` access throws a
`TypeError`; `simpleTopLevelGraph` propagates it.  This contradicts the
function's own documented contract ("@return {String or null}") and the
spec's propagation policy. -/
theorem C7_isRevert_throws :
    isRevert "Revert \"x\" This reverts commit ab." "Code cleanup" =
      Except.error () ∧
    revertMatch (oneLine "Revert \"x\" This reverts commit ab.") = some "ab" ∧
    leadingReverts "Code cleanup".data = 0 ∧
    simpleTopLevelGraph
      [{ revision := "a1", parents := "a0", date := "",
         summary := "Code cleanup",
         fullText := "Revert \"x\" This reverts commit ab.",
         authorName := "", authorEmail := "" }] = Except.error () := by
  decide

/-- C4: the shipped `consolodateCommitMessages` (the revision bundled with
`isRevert`) appends only `fullText` of non-reverted merged commits and
leaves `summary` untouched, contradicting the repository's own test
(`SourceControl.test.js`, "Commit messages are combined from merged
commits."), which expects the consolidated summary `"rev 5\nrev 2b\nrev
2a"`; the summary stays `"rev 5"` while `fullText` is consolidated. -/
theorem C4_summary_not_consolidated :
    (consolodateCommitMessages
      [⟨{ revision := "5", parents := "4 2b", date := "", summary := "rev 5",
          fullText := "Full rev 5", authorName := "", authorEmail := "",
          graphPrev := "4", graphParents := ["2b"], reverted := none },
        [{ revision := "2b", parents := "2a", date := "", summary := "rev 2b",
           fullText := "Full rev 2b", authorName := "", authorEmail := "",
           graphPrev := "2a", graphParents := [], reverted := none },
         { revision := "2a", parents := "2", date := "", summary := "rev 2a",
           fullText := "Full rev 2a", authorName := "", authorEmail := "",
           graphPrev := "2", graphParents := [], reverted := none }]⟩]).map
      (fun t => (t.node.summary, t.node.fullText)) =
      [("rev 5", "Full rev 5\nFull rev 2b\nFull rev 2a")] ∧
    ("rev 5" : String) ≠ "rev 5\nrev 2b\nrev 2a" := by
  decide

/-! ## Status partition -/

theorem contains_eq_decide_mem (l : List String) (x : String) :
    l.contains x = decide (x ∈ l) := by
  induction l with
  | nil => rfl
  | cons a t ih =>
    simp only [List.contains_cons, ih, List.mem_cons, beq_iff_eq]
    by_cases hx : x = a <;> simp [hx]

theorem groupGo_eq (statusMatch : List String) (tickets : List Ticket) :
    groupGo statusMatch tickets =
      (tickets.filter (fun t => statusMatch.contains (jsToLower t.fieldsStatusName)),
       tickets.filter (fun t =>
         !(statusMatch.contains (jsToLower t.fieldsStatusName)))) := by
  suffices hgen : ∀ (l : List Ticket) (acc1 acc2 : List Ticket),
      l.foldl (fun out t =>
        if statusMatch.contains (jsToLower t.fieldsStatusName) then
          (out.1 ++ [t], out.2)
        else (out.1, out.2 ++ [t])) (acc1, acc2) =
      (acc1 ++ l.filter (fun t => statusMatch.contains (jsToLower t.fieldsStatusName)),
       acc2 ++ l.filter (fun t =>
         !(statusMatch.contains (jsToLower t.fieldsStatusName)))) by
    have h := hgen tickets [] []
    simp only [groupGo]
    rw [h]
    simp
  intro l
  induction l with
  | nil => intro acc1 acc2; simp
  | cons t ts ih =>
    intro acc1 acc2
    cases hc : statusMatch.contains (jsToLower t.fieldsStatusName) with
    | true =>
      simp only [List.foldl_cons, hc, if_true, ih, List.filter_cons, Bool.not_true,
        List.append_assoc, List.singleton_append]
      simp
    | false =>
      simp only [List.foldl_cons, hc, Bool.false_eq_true, if_false, ih,
        List.filter_cons, Bool.not_false, List.append_assoc, List.singleton_append]
      simp

/-- C9: a ticket lands in the `approved` group exactly when its
`fields.status.name` is a case-insensitive member of the configured
approval-status names, and in `pending` otherwise (in input order); a
JS-falsy or empty configuration approves nothing, so every ticket is
pending. -/
theorem C9_group_tickets_by_status (approvalStatus : ApprovalStatus)
    (tickets : List Ticket) :
    groupTicketsByStatus approvalStatus tickets =
      (tickets.filter (fun t => decide (ciApproved approvalStatus t)),
       tickets.filter (fun t => !decide (ciApproved approvalStatus t))) := by
  have hpt : ∀ (names : List String) (t : Ticket),
      (names.map jsToLower).contains (jsToLower t.fieldsStatusName) =
      decide (∃ s ∈ names, jsToLower s = jsToLower t.fieldsStatusName) := by
    intro names t
    rw [contains_eq_decide_mem]
    apply decide_eq_decide.mpr
    simp [List.mem_map, eq_comm]
  cases approvalStatus with
  | undef =>
    simp [groupTicketsByStatus, ciApproved, approvalNames, List.filter_eq_self]
  | single s =>
    by_cases hs : s = ""
    · subst hs
      simp [groupTicketsByStatus, ciApproved, approvalNames, List.filter_eq_self]
    · simp only [groupTicketsByStatus, hs, if_false, groupGo_eq]
      simp only [Prod.mk.injEq]
      constructor
      · apply List.filter_congr
        intro t _
        have := hpt [s] t
        simpa [ciApproved, approvalNames, hs] using this
      · apply List.filter_congr
        intro t _
        have := hpt [s] t
        simp only [List.map_cons, List.map_nil] at this
        rw [this]
        simp [ciApproved, approvalNames, hs]
  | strings l =>
    simp only [groupTicketsByStatus, groupGo_eq]
    simp only [Prod.mk.injEq]
    constructor
    · apply List.filter_congr
      intro t _
      have := hpt l t
      rw [this]
      simp [ciApproved, approvalNames]
    · apply List.filter_congr
      intro t _
      have := hpt l t
      rw [this]
      simp [ciApproved, approvalNames]

/-! ## Heap frame property -/

theorem Heap.lookup_alloc {h : Heap} {c : DynCell} {a : Nat} (ha : a < h.next) :
    (h.alloc c).1.lookup a = h.lookup a := by
  unfold Heap.alloc Heap.lookup
  simp only
  rw [List.find?_append]
  cases hf : h.cells.find? (fun p => p.1 = a) with
  | some p => simp [hf]
  | none =>
    simp only [hf, Option.none_or]
    have : ¬ (h.next = a) := by omega
    simp [List.find?, this]

theorem allocNodes_next_le : ∀ (ns : List GNode) (h : Heap),
    h.next ≤ (allocNodes h ns).1.next := by
  intro ns
  induction ns with
  | nil => intro h; exact Nat.le_refl _
  | cons n rest ih =>
    intro h
    show h.next ≤ (allocNodes (h.alloc (nodeCell n [])).1 rest).1.next
    exact Nat.le_trans (Nat.le_succ _) (ih (h.alloc (nodeCell n [])).1)

theorem allocNodes_lookup : ∀ (ns : List GNode) (h : Heap) (a : Nat),
    a < h.next → (allocNodes h ns).1.lookup a = h.lookup a := by
  intro ns
  induction ns with
  | nil => intro h a _; rfl
  | cons n rest ih =>
    intro h a ha
    have h1 : (allocNodes (h.alloc (nodeCell n [])).1 rest).1.lookup a =
        (h.alloc (nodeCell n [])).1.lookup a :=
      ih _ a (Nat.lt_of_lt_of_le ha (Nat.le_succ _))
    calc (allocNodes h (n :: rest)).1.lookup a
        = (allocNodes (h.alloc (nodeCell n [])).1 rest).1.lookup a := rfl
      _ = (h.alloc (nodeCell n [])).1.lookup a := h1
      _ = h.lookup a := Heap.lookup_alloc ha

theorem allocTops_next_le : ∀ (ts : List GTop) (h : Heap),
    h.next ≤ (allocTops h ts).1.next := by
  intro ts
  induction ts with
  | nil => intro h; exact Nat.le_refl _
  | cons t rest ih =>
    intro h
    show h.next ≤ (allocTops ((allocNodes h t.graphMerged).1.alloc
      (nodeCell t.node (allocNodes h t.graphMerged).2)).1 rest).1.next
    refine Nat.le_trans (allocNodes_next_le t.graphMerged h) ?_
    exact Nat.le_trans (Nat.le_succ _)
      (ih ((allocNodes h t.graphMerged).1.alloc
        (nodeCell t.node (allocNodes h t.graphMerged).2)).1)

theorem allocTops_lookup : ∀ (ts : List GTop) (h : Heap) (a : Nat),
    a < h.next → (allocTops h ts).1.lookup a = h.lookup a := by
  intro ts
  induction ts with
  | nil => intro h a _; rfl
  | cons t rest ih =>
    intro h a ha
    have ha1 : a < (allocNodes h t.graphMerged).1.next :=
      Nat.lt_of_lt_of_le ha (allocNodes_next_le _ _)
    have ha2 : a < ((allocNodes h t.graphMerged).1.alloc
        (nodeCell t.node (allocNodes h t.graphMerged).2)).1.next :=
      Nat.lt_of_lt_of_le ha1 (Nat.le_succ _)
    calc (allocTops h (t :: rest)).1.lookup a
        = (allocTops ((allocNodes h t.graphMerged).1.alloc
            (nodeCell t.node (allocNodes h t.graphMerged).2)).1 rest).1.lookup a := rfl
      _ = ((allocNodes h t.graphMerged).1.alloc
            (nodeCell t.node (allocNodes h t.graphMerged).2)).1.lookup a := ih _ a ha2
      _ = (allocNodes h t.graphMerged).1.lookup a := Heap.lookup_alloc ha1
      _ = h.lookup a := allocNodes_lookup _ h a ha

/-- C10: the graph pipeline (heap model of `simpleTopLevelGraph` followed by
`consolodateCommitMessages`) never mutates the input records: every cell of
a well-formed heap reads back unchanged afterwards — the copies produced by
`{ ...l }` absorb all decoration, merged-list and consolidation writes at
freshly allocated addresses. -/
theorem C10_input_records_unchanged (h : Heap) (addrs : List Nat)
    (hwf : h.wf) (a : Nat) (c : DynCell) (hc : h.lookup a = some c) :
    (graphPipelineHeap h addrs).1.lookup a = some c := by
  have ha : a < h.next := by
    unfold Heap.lookup at hc
    cases hf : h.cells.find? (fun p => p.1 = a) with
    | none => rw [hf] at hc; cases hc
    | some p =>
      have hmem := List.mem_of_find?_eq_some hf
      have hip := List.find?_some hf
      simp only [decide_eq_true_eq] at hip
      exact hip ▸ hwf p hmem
  unfold graphPipelineHeap
  cases hm : addrs.mapM h.lookup with
  | none => exact hc
  | some cells =>
    show (match simpleTopLevelGraph (List.map (fun x : DynCell => x.base) cells) with
      | Except.error e => (h, Except.error e)
      | Except.ok graph =>
        ((allocTops h (consolodateCommitMessages graph)).1,
          Except.ok (allocTops h (consolodateCommitMessages graph)).2)).1.lookup a =
      some c
    cases hg : simpleTopLevelGraph (List.map (fun x : DynCell => x.base) cells) with
    | error e => exact hc
    | ok graph =>
      show (allocTops h (consolodateCommitMessages graph)).1.lookup a = some c
      rw [allocTops_lookup _ h a ha]
      exact hc

/-! ## Ticket-level revert marking: the stable date sort -/

theorem char_eq_of_toNat_eq {a b : Char} (h : a.toNat = b.toNat) : a = b := by
  have hv : a.val = b.val := by
    have h2 : a.val.toNat = b.val.toNat := h
    exact UInt32.toNat.inj h2
  exact Char.eq_of_val_eq hv

theorem lexLe_total : ∀ (a b : List Char), lexLe a b = true ∨ lexLe b a = true := by
  intro a
  induction a with
  | nil => intro b; exact Or.inl rfl
  | cons x xs ih =>
    intro b
    cases b with
    | nil => exact Or.inr rfl
    | cons y ys =>
      by_cases hxy : x.toNat < y.toNat
      · left; simp [lexLe, hxy]
      · by_cases hyx : y.toNat < x.toNat
        · right; simp [lexLe, hyx]
        · have heq : x.toNat = y.toNat := by omega
          rcases ih ys with h | h
          · left; simp [lexLe, hxy, heq, h]
          · right; simp [lexLe, hyx, heq.symm, h]

theorem lexLe_antisymm : ∀ (a b : List Char),
    lexLe a b = true → lexLe b a = true → a = b := by
  intro a
  induction a with
  | nil =>
    intro b _ hba
    cases b with
    | nil => rfl
    | cons y ys => simp [lexLe] at hba
  | cons x xs ih =>
    intro b hab hba
    cases b with
    | nil => simp [lexLe] at hab
    | cons y ys =>
      by_cases hxy : x.toNat < y.toNat
      · have : ¬ (y.toNat < x.toNat) := by omega
        have hne : ¬ (y.toNat = x.toNat) := by omega
        simp [lexLe, this, hne] at hba
      · by_cases hyx : y.toNat < x.toNat
        · have hne : ¬ (x.toNat = y.toNat) := by omega
          simp [lexLe, hxy, hne] at hab
        · have hxyeq : x.toNat = y.toNat := by omega
          simp only [lexLe] at hab hba
          rw [if_neg hxy, if_pos hxyeq] at hab
          rw [if_neg hyx, if_pos hxyeq.symm] at hba
          rw [char_eq_of_toNat_eq hxyeq, ih ys hab hba]

theorem lexLe_trans : ∀ (a b c : List Char),
    lexLe a b = true → lexLe b c = true → lexLe a c = true := by
  intro a
  induction a with
  | nil => intro b c _ _; rfl
  | cons x xs ih =>
    intro b c hab hbc
    cases b with
    | nil => simp [lexLe] at hab
    | cons y ys =>
      cases c with
      | nil => simp [lexLe] at hbc
      | cons z zs =>
        by_cases hxy : x.toNat < y.toNat
        · by_cases hyz : y.toNat < z.toNat
          · simp [lexLe, show x.toNat < z.toNat by omega]
          · by_cases hyzeq : y.toNat = z.toNat
            · simp [lexLe, show x.toNat < z.toNat by omega]
            · simp [lexLe, hyz, hyzeq] at hbc
        · by_cases hxyeq : x.toNat = y.toNat
          · simp only [lexLe] at hab
            rw [if_neg hxy, if_pos hxyeq] at hab
            by_cases hyz : y.toNat < z.toNat
            · simp [lexLe, show x.toNat < z.toNat by omega]
            · by_cases hyzeq : y.toNat = z.toNat
              · simp only [lexLe] at hbc
                rw [if_neg hyz, if_pos hyzeq] at hbc
                have hxz : ¬ (x.toNat < z.toNat) := by omega
                simp only [lexLe]
                rw [if_neg hxz, if_pos (show x.toNat = z.toNat by omega)]
                exact ih ys zs hab hbc
              · simp [lexLe, hyz, hyzeq] at hbc
          · simp [lexLe, hxy, hxyeq] at hab

theorem dateLe_total (a b : String) : dateLe a b = true ∨ dateLe b a = true :=
  lexLe_total a.data b.data

theorem dateLe_antisymm {a b : String} (hab : dateLe a b = true)
    (hba : dateLe b a = true) : a = b := by
  have hd := lexLe_antisymm a.data b.data hab hba
  cases a
  cases b
  exact congrArg String.mk hd

theorem dateLe_trans {a b c : String} (hab : dateLe a b = true)
    (hbc : dateLe b c = true) : dateLe a c = true :=
  lexLe_trans a.data b.data c.data hab hbc

/-- The sortedness relation of `sortByDate`. -/
def DateSorted (l : List CLog) : Prop :=
  List.Pairwise (fun a b => dateLe a.date b.date = true) l

theorem insertByDate_perm (c : CLog) : ∀ (l : List CLog),
    (insertByDate c l).Perm (c :: l) := by
  intro l
  induction l with
  | nil => exact List.Perm.refl _
  | cons d ds ih =>
    by_cases h : dateLe c.date d.date = true
    · simp only [insertByDate]
      rw [if_pos h]
    · simp only [insertByDate]
      rw [if_neg h]
      exact (List.Perm.cons d ih).trans (List.Perm.swap c d ds)

theorem insertByDate_sorted (c : CLog) : ∀ (l : List CLog),
    DateSorted l → DateSorted (insertByDate c l) := by
  intro l
  induction l with
  | nil => intro _; simp [insertByDate, DateSorted]
  | cons d ds ih =>
    intro hs
    unfold DateSorted at hs
    rw [List.pairwise_cons] at hs
    by_cases h : dateLe c.date d.date = true
    · simp only [insertByDate]
      rw [if_pos h]
      unfold DateSorted
      rw [List.pairwise_cons]
      refine ⟨?_, List.pairwise_cons.mpr hs⟩
      intro x hx
      rcases List.mem_cons.mp hx with rfl | hx'
      · exact h
      · exact dateLe_trans h (hs.1 x hx')
    · simp only [insertByDate]
      rw [if_neg h]
      have hdc : dateLe d.date c.date = true := by
        rcases dateLe_total c.date d.date with h1 | h1
        · exact absurd h1 h
        · exact h1
      unfold DateSorted
      rw [List.pairwise_cons]
      constructor
      · intro x hx
        have hperm := insertByDate_perm c ds
        have hx' : x ∈ c :: ds := hperm.subset hx
        rcases List.mem_cons.mp hx' with rfl | hx''
        · exact hdc
        · exact hs.1 x hx''
      · exact ih hs.2

theorem sortByDate_perm : ∀ (l : List CLog), (sortByDate l).Perm l := by
  intro l
  induction l with
  | nil => exact List.Perm.refl _
  | cons c cs ih =>
    exact (insertByDate_perm c (sortByDate cs)).trans (List.Perm.cons c ih)

theorem sortByDate_sorted : ∀ (l : List CLog), DateSorted (sortByDate l) := by
  intro l
  induction l with
  | nil => simp [sortByDate, DateSorted]
  | cons c cs ih => exact insertByDate_sorted c (sortByDate cs) ih

theorem sorted_strict_max_getLast (l : List CLog) (c : CLog) (hne : l ≠ [])
    (hsorted : DateSorted l) (hmem : c ∈ l)
    (hmax : ∀ d ∈ l, d ≠ c → (dateLe d.date c.date = true ∧ d.date ≠ c.date)) :
    l.getLast hne = c := by
  by_contra hlast
  have hlastmem : l.getLast hne ∈ l := List.getLast_mem hne
  obtain ⟨hled, hneq⟩ := hmax (l.getLast hne) hlastmem hlast
  have hsplit := List.dropLast_append_getLast hne
  have hcdrop : c ∈ l.dropLast := by
    have hc2 : c ∈ l.dropLast ++ [l.getLast hne] := hsplit.symm ▸ hmem
    rcases List.mem_append.mp hc2 with h | h
    · exact h
    · simp only [List.mem_singleton] at h
      exact absurd h.symm hlast
  have hpair : List.Pairwise (fun a b => dateLe a.date b.date = true)
      (l.dropLast ++ [l.getLast hne]) := by
    unfold DateSorted at hsorted
    rw [hsplit]
    exact hsorted
  have hcle := (List.pairwise_append.mp hpair).2.2 c hcdrop (l.getLast hne) (by simp)
  exact hneq (dateLe_antisymm hled hcle)

/-- C6: ticket-level revert marking reads only the most recent commit: for
the ticket at each position, an empty (or missing) commit list yields
`reverted = null`, and when one commit has strictly the latest `date`, the
result is that commit's `reverted || revertedBy`, independent of the input
order of the commits. -/
theorem C6_ticket_reverted_from_latest (tickets : List Ticket) (i : Nat)
    (t t' : Ticket) (hget : tickets.get? i = some t)
    (hget' : (decorateTicketReverts tickets).get? i = some t') :
    (t.commits = [] → t'.reverted = none) ∧
    (∀ c, strictlyLatest c t.commits →
      t'.reverted = jsOr c.reverted c.revertedBy) := by
  unfold decorateTicketReverts at hget'
  rw [List.get?_eq_getElem?] at hget hget'
  rw [List.getElem?_map, hget] at hget'
  simp only [Option.map_some'] at hget'
  have ht' := Option.some.inj hget'
  constructor
  · intro hempty
    rw [← ht']
    simp [hempty]
  · intro c hlatest
    obtain ⟨hcmem, hmax⟩ := hlatest
    have hnonempty : t.commits ≠ [] := by
      intro hcontr
      rw [hcontr] at hcmem
      cases hcmem
    have hsortperm := sortByDate_perm t.commits
    have hsortne : sortByDate t.commits ≠ [] := by
      intro hcontr
      rw [hcontr] at hsortperm
      exact hnonempty hsortperm.symm.eq_nil
    have hmem2 : c ∈ sortByDate t.commits := hsortperm.mem_iff.mpr hcmem
    have hmax2 : ∀ d ∈ sortByDate t.commits, d ≠ c →
        (dateLe d.date c.date = true ∧ d.date ≠ c.date) :=
      fun d hd => hmax d (hsortperm.subset hd)
    have hlast := sorted_strict_max_getLast (sortByDate t.commits) c hsortne
      (sortByDate_sorted _) hmem2 hmax2
    have hempty_false : t.commits.isEmpty = false := by
      cases hcl : t.commits with
      | nil => exact absurd hcl hnonempty
      | cons a b => rfl
    have hrev : (sortByDate t.commits).reverse =
        c :: ((sortByDate t.commits).dropLast).reverse := by
      conv_lhs => rw [← List.dropLast_append_getLast hsortne]
      rw [List.reverse_append, hlast]
      rfl
    rw [← ht']
    simp only [hempty_false, Bool.false_eq_true, if_false, hrev]

/-! ## Ticket extractor: scan soundness and completeness -/

theorem ticketAt_sound {cs key rest : List Char}
    (h : ticketAt cs = some (key, rest)) :
    ∃ L D, L ≠ [] ∧ (∀ c ∈ L, isTicketLetter c = true) ∧ D ≠ [] ∧
      (∀ c ∈ D, isDigitChar c = true) ∧ key = L ++ '-' :: D ∧
      cs = '[' :: (L ++ ('-' :: (D ++ (']' :: rest)))) := by
  rw [ticketAt.eq_def] at h
  split at h
  case h_2 => cases h
  case h_1 cs1 =>
    split at h
    · cases h
    · rename_i hL
      split at h
      case h_2 => cases h
      case h_1 cs2 heq2 =>
        split at h
        · cases h
        · rename_i hD
          split at h
          case h_2 => cases h
          case h_1 =>
            rename_i heq3
            cases h
            refine ⟨cs1.takeWhile isTicketLetter, cs2.takeWhile isDigitChar,
              hL, fun c hc => List.mem_takeWhile_imp hc, hD,
              fun c hc => List.mem_takeWhile_imp hc, rfl, ?_⟩
            have h2 : cs2 = cs2.takeWhile isDigitChar ++ (']' :: rest) := by
              conv_lhs => rw [takeWhile_drop_eq isDigitChar cs2]
              rw [heq3]
            have h1 : cs1 = cs1.takeWhile isTicketLetter ++
                ('-' :: cs2) := by
              conv_lhs => rw [takeWhile_drop_eq isTicketLetter cs1]
              rw [heq2]
            conv_lhs => rw [h1, h2]

theorem ticketAt_complete {L D rest : List Char} (hL : L ≠ [])
    (hLall : ∀ c ∈ L, isTicketLetter c = true) (hD : D ≠ [])
    (hDall : ∀ c ∈ D, isDigitChar c = true) :
    ticketAt ('[' :: (L ++ ('-' :: (D ++ (']' :: rest))))) =
      some (L ++ '-' :: D, rest) := by
  have htwL : (L ++ ('-' :: (D ++ (']' :: rest)))).takeWhile isTicketLetter = L :=
    takeWhile_append_of_all L '-' _ hLall (by decide)
  have hdropL : (L ++ ('-' :: (D ++ (']' :: rest)))).drop L.length =
      '-' :: (D ++ (']' :: rest)) := List.drop_left L _
  have htwD : (D ++ (']' :: rest)).takeWhile isDigitChar = D :=
    takeWhile_append_of_all D ']' rest hDall (by decide)
  have hdropD : (D ++ (']' :: rest)).drop D.length = ']' :: rest :=
    List.drop_left D _
  simp [ticketAt, htwL, hdropL, htwD, hdropD, hL, hD]

theorem scanTicketsGo_sound : ∀ (fuel : Nat) (cs m : List Char),
    m ∈ scanTicketsGo fuel cs →
    ∃ L D pre post, m = L ++ '-' :: D ∧ L ≠ [] ∧
      (∀ c ∈ L, isTicketLetter c = true) ∧ D ≠ [] ∧
      (∀ c ∈ D, isDigitChar c = true) ∧
      cs = pre ++ ('[' :: (L ++ ('-' :: (D ++ (']' :: post))))) := by
  intro fuel
  induction fuel with
  | zero => intro cs m hm; cases hm
  | succ f ih =>
    intro cs m hm
    cases cs with
    | nil => cases hm
    | cons c cs1 =>
      simp only [scanTicketsGo] at hm
      cases hta : ticketAt (c :: cs1) with
      | some r =>
        rw [hta] at hm
        obtain ⟨L0, D0, hL0, hL0all, hD0, hD0all, hkey, hcs⟩ :=
          @ticketAt_sound (c :: cs1) r.1 r.2 (by rw [hta])
        rcases List.mem_cons.mp hm with rfl | hm'
        · exact ⟨L0, D0, [], r.2, hkey, hL0, hL0all, hD0, hD0all, by
            simpa using hcs⟩
        · obtain ⟨L, D, pre, post, hm2, hL, hLall, hD, hDall, hrest⟩ :=
            ih r.2 m hm'
          refine ⟨L, D, '[' :: (L0 ++ ('-' :: (D0 ++ (']' :: pre)))), post,
            hm2, hL, hLall, hD, hDall, ?_⟩
          rw [hcs, hrest]
          simp [List.append_assoc]
      | none =>
        rw [hta] at hm
        obtain ⟨L, D, pre, post, hm2, hL, hLall, hD, hDall, hrest⟩ :=
          ih cs1 m hm
        exact ⟨L, D, c :: pre, post, hm2, hL, hLall, hD, hDall, by
          rw [hrest]; rfl⟩

theorem scanTicketsGo_ne_nil : ∀ (pre : List Char) (fuel : Nat)
    (L D post : List Char), L ≠ [] → (∀ c ∈ L, isTicketLetter c = true) →
    D ≠ [] → (∀ c ∈ D, isDigitChar c = true) →
    (pre ++ ('[' :: (L ++ ('-' :: (D ++ (']' :: post)))))).length ≤ fuel →
    scanTicketsGo fuel (pre ++ ('[' :: (L ++ ('-' :: (D ++ (']' :: post)))))) ≠
      [] := by
  intro pre
  induction pre with
  | nil =>
    intro fuel L D post hL hLall hD hDall hlen
    cases fuel with
    | zero => simp at hlen
    | succ f =>
      simp only [List.nil_append] at hlen ⊢
      simp only [scanTicketsGo, ticketAt_complete hL hLall hD hDall]
      simp
  | cons c pre' ih =>
    intro fuel L D post hL hLall hD hDall hlen
    cases fuel with
    | zero => simp at hlen
    | succ f =>
      simp only [List.cons_append] at hlen ⊢
      simp only [scanTicketsGo]
      cases hta : ticketAt (c :: (pre' ++
          ('[' :: (L ++ ('-' :: (D ++ (']' :: post))))))) with
      | some r => simp
      | none =>
        simp only
        refine ih f L D post hL hLall hD hDall ?_
        simp only [List.length_cons] at hlen
        omega

theorem scanTicketsGo_empty (fuel : Nat) : scanTicketsGo fuel [] = [] := by
  cases fuel <;> rfl

theorem ticketAt_rest_length {cs key rest : List Char}
    (h : ticketAt cs = some (key, rest)) : rest.length < cs.length := by
  obtain ⟨L, D, _, _, _, _, _, hcs⟩ := ticketAt_sound h
  rw [hcs]
  simp only [List.length_cons, List.length_append]
  omega

theorem scanTicketsGo_fuel_irrel : ∀ (f1 : Nat) (cs : List Char) (f2 : Nat),
    cs.length ≤ f1 → cs.length ≤ f2 →
    scanTicketsGo f1 cs = scanTicketsGo f2 cs := by
  intro f1
  induction f1 with
  | zero =>
    intro cs f2 h1 _
    have hcs : cs = [] := List.length_eq_zero.mp (Nat.le_zero.mp h1)
    subst hcs
    rw [scanTicketsGo_empty, scanTicketsGo_empty]
  | succ f ih =>
    intro cs f2 h1 h2
    cases cs with
    | nil => rw [scanTicketsGo_empty, scanTicketsGo_empty]
    | cons c t =>
      cases f2 with
      | zero => simp at h2
      | succ g =>
        cases hta : ticketAt (c :: t) with
        | some r =>
          simp only [scanTicketsGo, hta]
          have hlen := ticketAt_rest_length hta
          simp only [List.length_cons] at h1 h2 hlen
          rw [ih r.2 g (by omega) (by omega)]
        | none =>
          simp only [scanTicketsGo, hta]
          simp only [List.length_cons] at h1 h2
          rw [ih t g (by omega) (by omega)]

theorem scanTicketsGo_skip : ∀ (pre tail : List Char) (fuel : Nat),
    (pre ++ tail).length ≤ fuel →
    (∀ i, i < pre.length → ticketAt ((pre ++ tail).drop i) = none) →
    scanTicketsGo fuel (pre ++ tail) = scanTicketsGo tail.length tail := by
  intro pre
  induction pre with
  | nil =>
    intro tail fuel hf _
    simp only [List.nil_append] at hf ⊢
    exact scanTicketsGo_fuel_irrel fuel tail tail.length hf (Nat.le_refl _)
  | cons c pre1 ih =>
    intro tail fuel hf hleft
    cases fuel with
    | zero => simp at hf
    | succ f =>
      have h0 : ticketAt (c :: (pre1 ++ tail)) = none := by
        have := hleft 0 (Nat.succ_pos _)
        simpa using this
      simp only [List.cons_append, scanTicketsGo, List.append_eq, h0]
      refine ih tail f ?_ ?_
      · simp only [List.cons_append, List.length_cons] at hf
        omega
      · intro i hi
        have := hleft (i + 1) (Nat.succ_lt_succ hi)
        simpa using this

/-- C8 (amended): with the repository's default ticket pattern,
`parseTicketsFromString` returns one uppercased key per *occurrence* in
first-seen (leftmost, left-to-right) order — duplicates are preserved, not
de-duplicated (the caller `findJiraInCommit` de-duplicates).  The output is
fully characterized: (i) every returned key is the uppercased capture of a
bracketed `letters-digits` occurrence of the string; (ii) the result is
empty exactly when the string has no occurrence; (iii) when the leftmost
match of the scan starts after `pre` (no earlier position matches) and
captures `key` leaving `post`, the result is the uppercased `key` followed
by the extractor's result on `post` — with (ii) this recursion determines
the whole output, one entry per occurrence in scan order; (iv) holds on the
repository's example.  No error is possible (the function is total). -/
theorem C8_parse_tickets (str : String) :
    (∀ k ∈ parseTicketsFromString str, ∃ (L D : List Char),
      L ≠ [] ∧ (∀ c ∈ L, isTicketLetter c = true) ∧ D ≠ [] ∧
      (∀ c ∈ D, isDigitChar c = true) ∧ k = jsToUpper ⟨L ++ '-' :: D⟩ ∧
      ∃ pre post, str.data = pre ++ ('[' :: (L ++ ('-' :: (D ++ (']' :: post)))))) ∧
    (parseTicketsFromString str = [] ↔
      ¬ ∃ (pre L D post : List Char), L ≠ [] ∧
        (∀ c ∈ L, isTicketLetter c = true) ∧ D ≠ [] ∧
        (∀ c ∈ D, isDigitChar c = true) ∧
        str.data = pre ++ ('[' :: (L ++ ('-' :: (D ++ (']' :: post)))))) ∧
    (∀ (pre tail key post : List Char), str.data = pre ++ tail →
      (∀ i, i < pre.length → ticketAt (str.data.drop i) = none) →
      ticketAt tail = some (key, post) →
      parseTicketsFromString str =
        jsToUpper ⟨key⟩ :: parseTicketsFromString ⟨post⟩) ∧
    parseTicketsFromString "Foo bar [ENG-123] [ABC-1]nospace" =
      ["ENG-123", "ABC-1"] := by
  refine ⟨?_, ?_, ?_, by decide⟩
  · intro k hk
    unfold parseTicketsFromString at hk
    obtain ⟨key, hkey, hf⟩ := List.mem_filterMap.mp hk
    by_cases hkemp : key.isEmpty
    · simp [hkemp] at hf
    · simp only [hkemp, Bool.false_eq_true, if_false, Option.some.injEq] at hf
      obtain ⟨L, D, pre, post, hkeyeq, hL, hLall, hD, hDall, hcs⟩ :=
        scanTicketsGo_sound _ _ key hkey
      exact ⟨L, D, hL, hLall, hD, hDall, by rw [← hf, hkeyeq], pre, post, hcs⟩
  · constructor
    · intro hempty hex
      obtain ⟨pre, L, D, post, hL, hLall, hD, hDall, hcs⟩ := hex
      have hne := scanTicketsGo_ne_nil pre str.data.length L D post hL hLall hD
        hDall (by rw [← hcs])
      rw [← hcs] at hne
      cases hscan : scanTicketsGo str.data.length str.data with
      | nil => exact hne hscan
      | cons m tail =>
        have hmmem : m ∈ scanTicketsGo str.data.length str.data := by
          rw [hscan]; exact List.mem_cons_self m tail
        obtain ⟨L', D', pre', post', hm2, hL', _, hD', _, _⟩ :=
          scanTicketsGo_sound _ _ m hmmem
        have hmne : ¬ m.isEmpty := by
          rw [hm2]
          cases L' with
          | nil => exact absurd rfl hL'
          | cons a b => simp
        have : parseTicketsFromString str ≠ [] := by
          unfold parseTicketsFromString
          rw [hscan]
          simp only [List.filterMap_cons, hmne, Bool.false_eq_true, if_false]
          simp
        exact this hempty
    · intro hnex
      cases hp : parseTicketsFromString str with
      | nil => rfl
      | cons k tail =>
        exfalso
        have hk : k ∈ parseTicketsFromString str := by
          rw [hp]; exact List.mem_cons_self k tail
        unfold parseTicketsFromString at hk
        obtain ⟨key, hkey, hf⟩ := List.mem_filterMap.mp hk
        obtain ⟨L, D, pre, post, _, hL, hLall, hD, hDall, hcs⟩ :=
          scanTicketsGo_sound _ _ key hkey
        exact hnex ⟨pre, L, D, post, hL, hLall, hD, hDall, hcs⟩
  · intro pre tail key post hsplit hleft hmatch
    unfold parseTicketsFromString
    rw [hsplit] at hleft ⊢
    cases tail with
    | nil => simp [ticketAt] at hmatch
    | cons c t1 =>
      have hskip : scanTicketsGo (pre ++ c :: t1).length (pre ++ c :: t1) =
          scanTicketsGo (c :: t1).length (c :: t1) :=
        scanTicketsGo_skip pre (c :: t1) (pre ++ c :: t1).length
          (Nat.le_refl _) hleft
      have hstep : scanTicketsGo (c :: t1).length (c :: t1) =
          key :: scanTicketsGo t1.length post := by
        show scanTicketsGo (t1.length + 1) (c :: t1) = _
        simp only [scanTicketsGo, hmatch]
      have hlen := ticketAt_rest_length hmatch
      simp only [List.length_cons] at hlen
      have hfir : scanTicketsGo t1.length post =
          scanTicketsGo post.length post :=
        scanTicketsGo_fuel_irrel t1.length post post.length (by omega)
          (Nat.le_refl _)
      obtain ⟨L, D, hL, _, _, _, hkey, _⟩ := ticketAt_sound hmatch
      have hne : key.isEmpty = false := by
        rw [hkey]
        cases L with
        | nil => exact absurd rfl hL
        | cons a b => rfl
      rw [hskip, hstep, hfir, List.filterMap_cons]
      simp only [hne, Bool.false_eq_true, if_false]

/-- C8 (counterexample): two occurrences of the same key yield two entries —
the extractor does not de-duplicate. -/
theorem C8_duplicates_counterexample :
    parseTicketsFromString "Foo [ENG-123] bar [ENG-123]" =
      ["ENG-123", "ENG-123"] ∧
    ¬ (parseTicketsFromString "Foo [ENG-123] bar [ENG-123]").Nodup := by
  decide

/-! ## Revert resolver: store and index-set invariants -/

theorem lastIdxOf_lt {logs : List CLog} {r : String} {j : Nat}
    (h : lastIdxOf logs r = some j) : j < logs.length := by
  induction logs generalizing j with
  | nil => cases h
  | cons l rest ih =>
    rw [lastIdxOf] at h
    cases hrest : lastIdxOf rest r with
    | some j0 =>
      rw [hrest] at h
      cases h
      exact Nat.succ_lt_succ (ih hrest)
    | none =>
      rw [hrest] at h
      by_cases hr : l.revision = r
      · rw [if_pos hr] at h
        cases h
        exact Nat.succ_pos _
      · rw [if_neg hr] at h
        cases h

theorem lastIdxOf_get {logs : List CLog} {r : String} {j : Nat}
    (h : lastIdxOf logs r = some j) :
    ∃ log, logs.get? j = some log ∧ log.revision = r := by
  induction logs generalizing j with
  | nil => cases h
  | cons l rest ih =>
    rw [lastIdxOf] at h
    cases hrest : lastIdxOf rest r with
    | some j0 =>
      rw [hrest] at h
      cases h
      obtain ⟨log, hget, hrev⟩ := ih hrest
      exact ⟨log, hget, hrev⟩
    | none =>
      rw [hrest] at h
      by_cases hr : l.revision = r
      · rw [if_pos hr] at h
        cases h
        exact ⟨l, rfl, hr⟩
      · rw [if_neg hr] at h
        cases h

theorem lastIdxOf_of_get {logs : List CLog} {p : Nat} {log : CLog}
    (hnd : (logs.map (fun l => l.revision)).Nodup)
    (hget : logs.get? p = some log) :
    lastIdxOf logs log.revision = some p := by
  induction logs generalizing p with
  | nil => cases hget
  | cons l rest ih =>
    rw [List.map_cons, List.nodup_cons] at hnd
    cases p with
    | zero =>
      cases hget
      rw [lastIdxOf]
      cases hrest : lastIdxOf rest log.revision with
      | some j0 =>
        exfalso
        obtain ⟨log2, hget2, hrev2⟩ := lastIdxOf_get hrest
        exact hnd.1 (hrev2 ▸ List.mem_map_of_mem (fun l => l.revision)
          (List.get?_mem hget2))
      | none => rw [if_pos rfl]
    | succ q =>
      rw [lastIdxOf, ih hnd.2 hget]

theorem mem_addIdx {acc : List Nat} {j x : Nat} :
    x ∈ addIdx acc j ↔ x ∈ acc ∨ x = j := by
  unfold addIdx
  split
  · rename_i hj
    constructor
    · exact Or.inl
    · rintro (h | rfl)
      · exact h
      · exact hj
  · simp

theorem addIdx_nodup {acc : List Nat} {j : Nat} (h : acc.Nodup) :
    (addIdx acc j).Nodup := by
  unfold addIdx
  split
  · exact h
  · rename_i hj
    simp [List.nodup_append, h, hj]

theorem frStep_snd {logs : List CLog} {st : List (Option String) × List Nat}
    {i : Nat} (hi : i < logs.length) :
    (frStep logs st i).2 = addIdx st.2 (addedAt logs i) := by
  rcases hgs : logs.get? i with _ | log
  · rw [List.get?_eq_get hi] at hgs
    cases hgs
  · simp only [frStep, addedAt, hgs]
    by_cases htr : jsTruthy log.reverted = true
    · rw [if_pos htr, if_pos htr]
      cases lastIdxOf logs (log.reverted.getD "") <;> rfl
    · rw [if_neg htr, if_neg htr]

theorem frStep_snd_nodup {logs : List CLog}
    {st : List (Option String) × List Nat} {i : Nat} (h : st.2.Nodup) :
    ((frStep logs st i).2).Nodup := by
  rcases hgs : logs.get? i with _ | log
  · simp only [frStep, hgs]
    exact h
  · simp only [frStep, hgs]
    by_cases htr : jsTruthy log.reverted = true
    · rw [if_pos htr]
      cases lastIdxOf logs (log.reverted.getD "") <;> exact addIdx_nodup h
    · rw [if_neg htr]
      exact addIdx_nodup h

theorem frStep_fst_length {logs : List CLog}
    {st : List (Option String) × List Nat} {i : Nat} :
    ((frStep logs st i).1).length = st.1.length := by
  rcases hgs : logs.get? i with _ | log
  · simp only [frStep, hgs]
  · simp only [frStep, hgs]
    by_cases htr : jsTruthy log.reverted = true
    · rw [if_pos htr]
      cases lastIdxOf logs (log.reverted.getD "") with
      | some j => exact List.length_set st.1 j _
      | none => rfl
    · rw [if_neg htr]

theorem frStep_fst_of_writes {logs : List CLog}
    {st : List (Option String) × List Nat} {q j : Nat} {log : CLog}
    (hget : logs.get? q = some log) (htr : jsTruthy log.reverted = true)
    (hidx : lastIdxOf logs (log.reverted.getD "") = some j) :
    (frStep logs st q).1 = st.1.set j (some log.revision) := by
  simp only [frStep, hget, if_pos htr, hidx]

theorem frStep_fst_of_no_write {logs : List CLog}
    {st : List (Option String) × List Nat} {q j : Nat}
    (h : ∀ log, logs.get? q = some log → jsTruthy log.reverted = true →
      lastIdxOf logs (log.reverted.getD "") ≠ some j) :
    ((frStep logs st q).1).get? j = st.1.get? j := by
  rcases hgs : logs.get? q with _ | log
  · simp only [frStep, hgs]
  · simp only [frStep, hgs]
    by_cases htr : jsTruthy log.reverted = true
    · rw [if_pos htr]
      cases hidx : lastIdxOf logs (log.reverted.getD "") with
      | some j0 =>
        have hne : j0 ≠ j := fun hc => h log hgs htr (hc ▸ hidx)
        show (st.1.set j0 (some log.revision)).get? j = st.1.get? j
        rw [List.get?_eq_getElem?, List.get?_eq_getElem?,
          List.getElem?_set_ne hne]
      | none => rfl
    · rw [if_neg htr]

theorem fold_snd_mem {logs : List CLog} : ∀ (l : List Nat)
    (st : List (Option String) × List Nat) (x : Nat),
    (∀ p ∈ l, p < logs.length) →
    (x ∈ (l.foldl (frStep logs) st).2 ↔
      x ∈ st.2 ∨ ∃ p ∈ l, addedAt logs p = x) := by
  intro l
  induction l with
  | nil => intro st x _; simp
  | cons p l ih =>
    intro st x hb
    rw [List.foldl_cons, ih _ x (fun q hq => hb q (List.mem_cons_of_mem p hq)),
      frStep_snd (hb p (List.mem_cons_self p l)), mem_addIdx]
    constructor
    · rintro ((h | rfl) | ⟨q, hq, hqa⟩)
      · exact Or.inl h
      · exact Or.inr ⟨p, List.mem_cons_self p l, rfl⟩
      · exact Or.inr ⟨q, List.mem_cons_of_mem p hq, hqa⟩
    · rintro (h | ⟨q, hq, hqa⟩)
      · exact Or.inl (Or.inl h)
      · rcases List.mem_cons.mp hq with rfl | hq'
        · exact Or.inl (Or.inr hqa.symm)
        · exact Or.inr ⟨q, hq', hqa⟩

theorem fold_snd_nodup {logs : List CLog} : ∀ (l : List Nat)
    (st : List (Option String) × List Nat),
    st.2.Nodup → ((l.foldl (frStep logs) st).2).Nodup := by
  intro l
  induction l with
  | nil => intro st h; exact h
  | cons p l ih =>
    intro st h
    exact ih _ (frStep_snd_nodup h)

theorem fold_fst_length {logs : List CLog} : ∀ (l : List Nat)
    (st : List (Option String) × List Nat),
    ((l.foldl (frStep logs) st).1).length = st.1.length := by
  intro l
  induction l with
  | nil => intro st; rfl
  | cons p l ih =>
    intro st
    rw [List.foldl_cons, ih, frStep_fst_length]

theorem fold_fst_no_write {logs : List CLog} {j : Nat} : ∀ (l : List Nat)
    (st : List (Option String) × List Nat),
    (∀ q ∈ l, ∀ log, logs.get? q = some log → jsTruthy log.reverted = true →
      lastIdxOf logs (log.reverted.getD "") ≠ some j) →
    ((l.foldl (frStep logs) st).1).get? j = st.1.get? j := by
  intro l
  induction l with
  | nil => intro st _; rfl
  | cons p l ih =>
    intro st h
    rw [List.foldl_cons, ih _ (fun q hq => h q (List.mem_cons_of_mem p hq)),
      frStep_fst_of_no_write (h p (List.mem_cons_self p l))]

theorem mem_filterRevertedCommits {logs : List CLog} {c : CLog}
    {st : List (Option String) × List Nat}
    (hst : st = (List.range logs.length).foldl (frStep logs)
      (logs.map (fun l => l.revertedBy), [])) :
    c ∈ filterRevertedCommits logs ↔
    ∃ i ∈ st.2, ∃ log, logs.get? i = some log ∧
      c = { log with revertedBy := (st.1.get? i).getD log.revertedBy } := by
  subst hst
  unfold filterRevertedCommits
  rw [List.mem_filterMap]
  constructor
  · rintro ⟨i, hi, hf⟩
    cases hget : logs.get? i with
    | none => rw [hget] at hf; cases hf
    | some log =>
      rw [hget] at hf
      cases hf
      exact ⟨i, hi, log, hget, rfl⟩
  · rintro ⟨i, hi, log, hget, rfl⟩
    exact ⟨i, hi, by rw [hget]; rfl⟩

theorem fold_fst_last_write {logs : List CLog} {p j : Nat} {hp : p < logs.length}
    (htr : jsTruthy (logs.get ⟨p, hp⟩).reverted = true)
    (hidx : lastIdxOf logs ((logs.get ⟨p, hp⟩).reverted.getD "") = some j)
    (hlast : ∀ q, ∀ hq : q < logs.length, p < q →
      ¬ (jsTruthy (logs.get ⟨q, hq⟩).reverted = true ∧
        lastIdxOf logs ((logs.get ⟨q, hq⟩).reverted.getD "") = some j)) :
    (((List.range logs.length).foldl (frStep logs)
      (logs.map (fun l => l.revertedBy), [])).1).get? j =
      some (some ((logs.get ⟨p, hp⟩).revision)) := by
  have hsplit : List.range logs.length = List.range (p + 1) ++
      (List.range (logs.length - (p + 1))).map (fun i => (p + 1) + i) := by
    rw [← List.range_add]
    congr 1
    omega
  have hr1 : List.range (p + 1) = List.range p ++ [p] := List.range_succ p
  have hno : ∀ q ∈ (List.range (logs.length - (p + 1))).map
      (fun i => (p + 1) + i),
      ∀ log, logs.get? q = some log → jsTruthy log.reverted = true →
      lastIdxOf logs (log.reverted.getD "") ≠ some j := by
    intro q hq log hget htrq hidxq
    obtain ⟨i0, hi0, rfl⟩ := List.mem_map.mp hq
    have hi1 : i0 < logs.length - (p + 1) := List.mem_range.mp hi0
    have hqlt : (p + 1) + i0 < logs.length := by omega
    have hlog : logs.get ⟨(p + 1) + i0, hqlt⟩ = log :=
      Option.some.inj ((List.get?_eq_get hqlt).symm.trans hget)
    exact hlast ((p + 1) + i0) hqlt (by omega)
      ⟨by rw [hlog]; exact htrq, by rw [hlog]; exact hidxq⟩
  have hjlen : j < (((List.range p).foldl (frStep logs)
      (logs.map (fun l => l.revertedBy), [])).1).length := by
    rw [fold_fst_length, List.length_map]
    exact lastIdxOf_lt hidx
  rw [hsplit, List.foldl_append, hr1, List.foldl_append,
    fold_fst_no_write _ _ hno, List.foldl_cons, List.foldl_nil,
    frStep_fst_of_writes (List.get?_eq_get hp) htr hidx,
    List.get?_eq_getElem?, List.getElem?_set_self hjlen]

/-- C5 (amended): for a commit list with pairwise-distinct revisions,
`filterRevertedCommits` (i) yields pairwise-distinct output revisions drawn
from the input, (ii) keeps every non-reverting commit, (iii) annotates the
target of the *last* reverter of a present revision with that reverter's
revision in `revertedBy`, (iv) keeps a reverter of a *present* revision in
the output exactly when some commit in the list reverts the reverter's own
revision (so reverters are NOT unconditionally dropped, contrary to the
original claim), and (v) keeps a reverter of an *absent* revision unchanged
provided nothing reverts it. -/
theorem C5_filter_reverted (logs : List CLog)
    (hnd : (logs.map (fun l => l.revision)).Nodup) :
    ((filterRevertedCommits logs).map (fun l => l.revision)).Nodup ∧
    (∀ c ∈ filterRevertedCommits logs,
      c.revision ∈ logs.map (fun l => l.revision)) ∧
    (∀ p, ∀ hp : p < logs.length,
      ¬ jsTruthy (logs.get ⟨p, hp⟩).reverted = true →
      ∃ c ∈ filterRevertedCommits logs,
        c.revision = (logs.get ⟨p, hp⟩).revision) ∧
    (∀ p, ∀ hp : p < logs.length, ∀ j,
      jsTruthy (logs.get ⟨p, hp⟩).reverted = true →
      lastIdxOf logs ((logs.get ⟨p, hp⟩).reverted.getD "") = some j →
      (∀ q, ∀ hq : q < logs.length, p < q →
        ¬ (jsTruthy (logs.get ⟨q, hq⟩).reverted = true ∧
          lastIdxOf logs ((logs.get ⟨q, hq⟩).reverted.getD "") = some j)) →
      ∃ c ∈ filterRevertedCommits logs, ∃ hj : j < logs.length,
        c.revision = (logs.get ⟨j, hj⟩).revision ∧
        c.revertedBy = some ((logs.get ⟨p, hp⟩).revision)) ∧
    (∀ p, ∀ hp : p < logs.length, ∀ j,
      jsTruthy (logs.get ⟨p, hp⟩).reverted = true →
      lastIdxOf logs ((logs.get ⟨p, hp⟩).reverted.getD "") = some j →
      ((∃ c ∈ filterRevertedCommits logs,
          c.revision = (logs.get ⟨p, hp⟩).revision) ↔
        (∃ q, ∃ hq : q < logs.length,
          jsTruthy (logs.get ⟨q, hq⟩).reverted = true ∧
          lastIdxOf logs ((logs.get ⟨q, hq⟩).reverted.getD "") = some p))) ∧
    (∀ p, ∀ hp : p < logs.length,
      jsTruthy (logs.get ⟨p, hp⟩).reverted = true →
      lastIdxOf logs ((logs.get ⟨p, hp⟩).reverted.getD "") = none →
      (∀ q, ∀ hq : q < logs.length,
        ¬ (jsTruthy (logs.get ⟨q, hq⟩).reverted = true ∧
          lastIdxOf logs ((logs.get ⟨q, hq⟩).reverted.getD "") = some p)) →
      logs.get ⟨p, hp⟩ ∈ filterRevertedCommits logs) := by
  obtain ⟨st, hst⟩ : ∃ st, st = (List.range logs.length).foldl (frStep logs)
      (logs.map (fun l => l.revertedBy), []) := ⟨_, rfl⟩
  have hmemc : ∀ c : CLog, c ∈ filterRevertedCommits logs ↔
      ∃ i ∈ st.2, ∃ log, logs.get? i = some log ∧
        c = { log with revertedBy := (st.1.get? i).getD log.revertedBy } :=
    fun c => mem_filterRevertedCommits hst
  have hndst2 : st.2.Nodup := by
    rw [hst]
    exact fold_snd_nodup _ _ List.nodup_nil
  have hsnd : ∀ x, x ∈ st.2 ↔
      ∃ p, ∃ hp : p < logs.length, addedAt logs p = x := by
    intro x
    rw [hst, fold_snd_mem (List.range logs.length) _ x
      (fun p hp => List.mem_range.mp hp)]
    constructor
    · rintro (h | ⟨p, hp, hpa⟩)
      · exact absurd h (List.not_mem_nil x)
      · exact ⟨p, List.mem_range.mp hp, hpa⟩
    · rintro ⟨p, hp, hpa⟩
      exact Or.inr ⟨p, List.mem_range.mpr hp, hpa⟩
  have hrevinj : ∀ i i' : Nat, ∀ log log' : CLog, logs.get? i = some log →
      logs.get? i' = some log' → log.revision = log'.revision → i = i' := by
    intro i i' log log' h1 h2 hr
    have hi : i < logs.length := by
      by_contra hlt
      rw [List.get?_eq_getElem?, List.getElem?_eq_none (by omega)] at h1
      cases h1
    exact List.get?_inj (by rw [List.length_map]; exact hi) hnd
      (by simp only [List.get?_map, h1, h2, Option.map_some', hr])
  have haddA : ∀ p, ∀ hp : p < logs.length,
      ¬ jsTruthy (logs.get ⟨p, hp⟩).reverted = true → addedAt logs p = p := by
    intro p hp htr
    simp only [addedAt, List.get?_eq_get hp]
    rw [if_neg htr]
  have haddB : ∀ p, ∀ hp : p < logs.length, ∀ j,
      jsTruthy (logs.get ⟨p, hp⟩).reverted = true →
      lastIdxOf logs ((logs.get ⟨p, hp⟩).reverted.getD "") = some j →
      addedAt logs p = j := by
    intro p hp j htr hidx
    simp only [addedAt, List.get?_eq_get hp]
    rw [if_pos htr, hidx]
  have haddC : ∀ p, ∀ hp : p < logs.length,
      jsTruthy (logs.get ⟨p, hp⟩).reverted = true →
      lastIdxOf logs ((logs.get ⟨p, hp⟩).reverted.getD "") = none →
      addedAt logs p = p := by
    intro p hp htr hidx
    simp only [addedAt, List.get?_eq_get hp]
    rw [if_pos htr, hidx]
  have haddInv : ∀ q, ∀ hq : q < logs.length, ∀ x, addedAt logs q = x →
      x = q ∨ (jsTruthy (logs.get ⟨q, hq⟩).reverted = true ∧
        lastIdxOf logs ((logs.get ⟨q, hq⟩).reverted.getD "") = some x) := by
    intro q hq x hx
    simp only [addedAt, List.get?_eq_get hq] at hx
    by_cases htr : jsTruthy (logs.get ⟨q, hq⟩).reverted = true
    · rw [if_pos htr] at hx
      cases hidx : lastIdxOf logs ((logs.get ⟨q, hq⟩).reverted.getD "") with
      | some j0 =>
        rw [hidx] at hx
        have hx2 : j0 = x := hx
        subst hx2
        right
        exact ⟨htr, rfl⟩
      | none =>
        rw [hidx] at hx
        have hx2 : q = x := hx
        left
        exact hx2.symm
    · rw [if_neg htr] at hx
      left
      exact hx.symm
  have hfeq : filterRevertedCommits logs = st.2.filterMap (fun i =>
      (logs.get? i).map (fun log =>
        { log with revertedBy := (st.1.get? i).getD log.revertedBy })) := by
    rw [hst]
    rfl
  refine ⟨?_, ?_, ?_, ?_, ?_, ?_⟩
  · rw [hfeq, List.map_filterMap]
    refine hndst2.filterMap ?_
    intro i i' r hfi hfi'
    rcases hgi : logs.get? i with _ | log
    · rw [hgi] at hfi
      cases hfi
    · rcases hgi2 : logs.get? i' with _ | log2
      · rw [hgi2] at hfi'
        cases hfi'
      · rw [hgi] at hfi
        rw [hgi2] at hfi'
        have h1 : log.revision = r := by simpa using hfi
        have h2 : log2.revision = r := by simpa using hfi'
        exact hrevinj i i' log log2 hgi hgi2 (by rw [h1, h2])
  · intro c hc
    obtain ⟨i, hi, log, hget, rfl⟩ := (hmemc c).mp hc
    exact List.mem_map_of_mem (fun l => l.revision) (List.get?_mem hget)
  · intro p hp htr
    have hpm : p ∈ st.2 := (hsnd p).mpr ⟨p, hp, haddA p hp htr⟩
    exact ⟨_, (hmemc _).mpr ⟨p, hpm, logs.get ⟨p, hp⟩,
      List.get?_eq_get hp, rfl⟩, rfl⟩
  · intro p hp j htr hidx hlast
    have hj : j < logs.length := lastIdxOf_lt hidx
    have hjm : j ∈ st.2 := (hsnd j).mpr ⟨p, hp, haddB p hp j htr hidx⟩
    have hsv : st.1.get? j = some (some ((logs.get ⟨p, hp⟩).revision)) := by
      rw [hst]
      exact fold_fst_last_write htr hidx hlast
    refine ⟨_, (hmemc _).mpr ⟨j, hjm, logs.get ⟨j, hj⟩,
      List.get?_eq_get hj, rfl⟩, hj, rfl, ?_⟩
    rw [hsv]
    rfl
  · intro p hp j htr hidx
    constructor
    · rintro ⟨c, hc, hcr⟩
      obtain ⟨i, hi, log, hget, rfl⟩ := (hmemc c).mp hc
      have hip : i = p := hrevinj i p log (logs.get ⟨p, hp⟩) hget
        (List.get?_eq_get hp) hcr
      subst hip
      obtain ⟨q, hq, hqa⟩ := (hsnd i).mp hi
      rcases haddInv q hq i hqa with hpq | ⟨htrq, hidxq⟩
      · subst hpq
        have hij : addedAt logs i = j := haddB i hp j htr hidx
        have hji : j = i := hij.symm.trans hqa
        exact ⟨i, hp, htr, hji ▸ hidx⟩
      · exact ⟨q, hq, htrq, hidxq⟩
    · rintro ⟨q, hq, htrq, hidxq⟩
      have hpm : p ∈ st.2 := (hsnd p).mpr ⟨q, hq, haddB q hq p htrq hidxq⟩
      exact ⟨_, (hmemc _).mpr ⟨p, hpm, logs.get ⟨p, hp⟩,
        List.get?_eq_get hp, rfl⟩, rfl⟩
  · intro p hp htr hidx hnw
    have hpm : p ∈ st.2 := (hsnd p).mpr ⟨p, hp, haddC p hp htr hidx⟩
    have h1 : st.1.get? p = some ((logs.get ⟨p, hp⟩).revertedBy) := by
      rw [hst, fold_fst_no_write]
      · rw [List.get?_map, List.get?_eq_get hp]
        rfl
      · intro q hq log hget htrq hidxq
        have hqlt : q < logs.length := List.mem_range.mp hq
        have hlog : logs.get ⟨q, hqlt⟩ = log :=
          Option.some.inj ((List.get?_eq_get hqlt).symm.trans hget)
        exact hnw q hqlt ⟨by rw [hlog]; exact htrq, by rw [hlog]; exact hidxq⟩
    refine (hmemc _).mpr ⟨p, hpm, logs.get ⟨p, hp⟩, List.get?_eq_get hp, ?_⟩
    rw [h1]
    rfl

/-- C5 (counterexample): in the revert chain 1 ← 2 ← 3 (commit 2 reverts the
present commit 1, commit 3 reverts commit 2), the reverting commit 2 is NOT
absent from the output — it survives, annotated by 3 — so \"the reverting
commit itself is absent\" fails for every such chain's middle commit. -/
theorem C5_chain_counterexample :
    filterRevertedCommits
      [⟨"1", "", none, none⟩, ⟨"2", "", some "1", none⟩,
       ⟨"3", "", some "2", none⟩] =
      [⟨"1", "", none, some "2"⟩, ⟨"2", "", some "1", some "3"⟩] ∧
    "2" ∈ (filterRevertedCommits
      [⟨"1", "", none, none⟩, ⟨"2", "", some "1", none⟩,
       ⟨"3", "", some "2", none⟩]).map (fun l => l.revision) := by
  decide

/-! ## Concrete witnesses discharging the theorems' hypotheses -/

set_option maxRecDepth 10000 in
/-- Witness for `C1_no_double_attribution`: a three-commit history with a
merge tip. -/
theorem C1_no_double_attribution_witness :
    (([⟨"5", "4 2b", "", "s5", "t5", "", ""⟩, ⟨"4", "", "", "s4", "t4", "", ""⟩,
      ⟨"2b", "", "", "sb", "tb", "", ""⟩] : List RawLog).map
      RawLog.revision).Nodup ∧
    simpleTopLevelGraph
      [⟨"5", "4 2b", "", "s5", "t5", "", ""⟩, ⟨"4", "", "", "s4", "t4", "", ""⟩,
       ⟨"2b", "", "", "sb", "tb", "", ""⟩] =
      Except.ok
        [⟨⟨"5", "4 2b", "", "s5", "t5", "", "", "4", ["2b"], none⟩,
          [⟨"2b", "", "", "sb", "tb", "", "", "", [], none⟩]⟩,
         ⟨⟨"4", "", "", "s4", "t4", "", "", "", [], none⟩, []⟩] ∧
    (([⟨⟨"5", "4 2b", "", "s5", "t5", "", "", "4", ["2b"], none⟩,
          [⟨"2b", "", "", "sb", "tb", "", "", "", [], none⟩]⟩,
        ⟨⟨"4", "", "", "s4", "t4", "", "", "", [], none⟩, []⟩] :
        List GTop).map (fun t => t.node.revision) ++
      (([⟨⟨"5", "4 2b", "", "s5", "t5", "", "", "4", ["2b"], none⟩,
          [⟨"2b", "", "", "sb", "tb", "", "", "", [], none⟩]⟩,
        ⟨⟨"4", "", "", "s4", "t4", "", "", "", [], none⟩, []⟩] :
        List GTop).map (fun t => t.graphMerged.map GNode.revision)).flatten).Nodup ∧
    (∀ r ∈ ([⟨⟨"5", "4 2b", "", "s5", "t5", "", "", "4", ["2b"], none⟩,
          [⟨"2b", "", "", "sb", "tb", "", "", "", [], none⟩]⟩,
        ⟨⟨"4", "", "", "s4", "t4", "", "", "", [], none⟩, []⟩] :
        List GTop).map (fun t => t.node.revision) ++
      (([⟨⟨"5", "4 2b", "", "s5", "t5", "", "", "4", ["2b"], none⟩,
          [⟨"2b", "", "", "sb", "tb", "", "", "", [], none⟩]⟩,
        ⟨⟨"4", "", "", "s4", "t4", "", "", "", [], none⟩, []⟩] :
        List GTop).map (fun t => t.graphMerged.map GNode.revision)).flatten,
      r ∈ ([⟨"5", "4 2b", "", "s5", "t5", "", ""⟩,
        ⟨"4", "", "", "s4", "t4", "", ""⟩,
        ⟨"2b", "", "", "sb", "tb", "", ""⟩] : List RawLog).map RawLog.revision) :=
  ⟨by decide, by decide,
    C1_no_double_attribution
      [⟨"5", "4 2b", "", "s5", "t5", "", ""⟩, ⟨"4", "", "", "s4", "t4", "", ""⟩,
       ⟨"2b", "", "", "sb", "tb", "", ""⟩]
      [⟨⟨"5", "4 2b", "", "s5", "t5", "", "", "4", ["2b"], none⟩,
        [⟨"2b", "", "", "sb", "tb", "", "", "", [], none⟩]⟩,
       ⟨⟨"4", "", "", "s4", "t4", "", "", "", [], none⟩, []⟩]
      (by decide) (by decide)⟩

/-- Witness for `C2_graph_merged_refines_spec`: a two-commit chain, every
record well-formed. -/
theorem C2_graph_merged_refines_spec_witness :
    (∀ l ∈ ([⟨"b", "a", "", "sb", "tb", "", ""⟩,
      ⟨"a", "", "", "sa", "ta", "", ""⟩] : List RawLog), okRaw l) ∧
    simpleTopLevelGraph
      [⟨"b", "a", "", "sb", "tb", "", ""⟩, ⟨"a", "", "", "sa", "ta", "", ""⟩] =
    specSimpleTopLevelGraph
      [⟨"b", "a", "", "sb", "tb", "", ""⟩, ⟨"a", "", "", "sa", "ta", "", ""⟩] :=
  ⟨by decide,
    C2_graph_merged_refines_spec
      [⟨"b", "a", "", "sb", "tb", "", ""⟩, ⟨"a", "", "", "sa", "ta", "", ""⟩]
      (by decide)⟩

/-- Witness for `C5_filter_reverted`: commit 2 reverts the present commit 1;
the output holds commit 1 annotated with `revertedBy = "2"`. -/
theorem C5_filter_reverted_witness :
    (([⟨"1", "", none, none⟩, ⟨"2", "", some "1", none⟩] : List CLog).map
      (fun l => l.revision)).Nodup ∧
    ∃ c ∈ filterRevertedCommits
        [⟨"1", "", none, none⟩, ⟨"2", "", some "1", none⟩],
      ∃ hj : 0 < ([⟨"1", "", none, none⟩,
          ⟨"2", "", some "1", none⟩] : List CLog).length,
      c.revision = (([⟨"1", "", none, none⟩,
          ⟨"2", "", some "1", none⟩] : List CLog).get ⟨0, hj⟩).revision ∧
      c.revertedBy = some ((([⟨"1", "", none, none⟩,
          ⟨"2", "", some "1", none⟩] : List CLog).get
          ⟨1, by decide⟩).revision) := by
  refine ⟨by decide, ?_⟩
  exact (C5_filter_reverted
      [⟨"1", "", none, none⟩, ⟨"2", "", some "1", none⟩]
      (by decide)).2.2.2.1 1 (by decide) 0 (by decide) (by decide)
    (fun q hq hlt => absurd hq
      (by simp only [List.length_cons, List.length_nil]; omega))

/-- Witness for `C6_ticket_reverted_from_latest`: a ticket whose latest-dated
commit carries `revertedBy = "r"`. -/
theorem C6_ticket_reverted_from_latest_witness :
    ([⟨"T", [⟨"c1", "2020-01-01", none, none⟩,
        ⟨"c2", "2020-01-02", none, some "r"⟩], none, ""⟩] :
      List Ticket).get? 0 =
      some ⟨"T", [⟨"c1", "2020-01-01", none, none⟩,
        ⟨"c2", "2020-01-02", none, some "r"⟩], none, ""⟩ ∧
    (decorateTicketReverts [⟨"T", [⟨"c1", "2020-01-01", none, none⟩,
        ⟨"c2", "2020-01-02", none, some "r"⟩], none, ""⟩]).get? 0 =
      some ⟨"T", [⟨"c1", "2020-01-01", none, none⟩,
        ⟨"c2", "2020-01-02", none, some "r"⟩], some "r", ""⟩ ∧
    (((⟨"T", [⟨"c1", "2020-01-01", none, none⟩,
        ⟨"c2", "2020-01-02", none, some "r"⟩], none, ""⟩ : Ticket).commits =
          [] →
      (⟨"T", [⟨"c1", "2020-01-01", none, none⟩,
        ⟨"c2", "2020-01-02", none, some "r"⟩], some "r", ""⟩ :
        Ticket).reverted = none) ∧
    (∀ c, strictlyLatest c (⟨"T", [⟨"c1", "2020-01-01", none, none⟩,
        ⟨"c2", "2020-01-02", none, some "r"⟩], none, ""⟩ : Ticket).commits →
      (⟨"T", [⟨"c1", "2020-01-01", none, none⟩,
        ⟨"c2", "2020-01-02", none, some "r"⟩], some "r", ""⟩ :
        Ticket).reverted = jsOr c.reverted c.revertedBy)) :=
  ⟨by decide, by decide,
    C6_ticket_reverted_from_latest
      [⟨"T", [⟨"c1", "2020-01-01", none, none⟩,
        ⟨"c2", "2020-01-02", none, some "r"⟩], none, ""⟩] 0
      ⟨"T", [⟨"c1", "2020-01-01", none, none⟩,
        ⟨"c2", "2020-01-02", none, some "r"⟩], none, ""⟩
      ⟨"T", [⟨"c1", "2020-01-01", none, none⟩,
        ⟨"c2", "2020-01-02", none, some "r"⟩], some "r", ""⟩
      (by decide) (by decide)⟩

/-- Witness for `C10_input_records_unchanged`: a one-cell heap holding one
raw commit record; the pipeline leaves the cell intact. -/
theorem C10_input_records_unchanged_witness :
    (⟨1, [(0, ⟨⟨"1", "", "", "s", "t", "", ""⟩, none, none, none, none⟩)]⟩ :
      Heap).wf ∧
    (⟨1, [(0, ⟨⟨"1", "", "", "s", "t", "", ""⟩, none, none, none, none⟩)]⟩ :
      Heap).lookup 0 =
      some ⟨⟨"1", "", "", "s", "t", "", ""⟩, none, none, none, none⟩ ∧
    (graphPipelineHeap
      ⟨1, [(0, ⟨⟨"1", "", "", "s", "t", "", ""⟩, none, none, none, none⟩)]⟩
      [0]).1.lookup 0 =
      some ⟨⟨"1", "", "", "s", "t", "", ""⟩, none, none, none, none⟩ :=
  ⟨by decide, by decide,
    C10_input_records_unchanged
      ⟨1, [(0, ⟨⟨"1", "", "", "s", "t", "", ""⟩, none, none, none, none⟩)]⟩
      [0] (by decide) 0
      ⟨⟨"1", "", "", "s", "t", "", ""⟩, none, none, none, none⟩ (by decide)⟩

end JiraChangelog